import Mathlib

/-!
Verification of the plan-execution engine in `main.py`.

The program reorganizes a directory tree according to a line-oriented plan
script (MKDIR / MOVE / RENAME), confining every operation to a fixed root
("desktop") directory, and records inverse operations in a rollback journal
that can be replayed in reverse to undo the batch.

Shallow embedding conventions:
* Python strings are modelled as `List Char` (`Str`).
* An absolute filesystem path is a list of name components from the
  filesystem root (`Path`); `os.path` functions (`join`, `normpath`,
  `abspath`, `relpath`, `basename`) are modelled on this representation.
  The guard `_is_within_desktop` is modelled faithfully at the string level
  (building the `/`-joined string and testing `str.startswith`).
* The filesystem is a finite association list from absolute paths to nodes
  (`FS`); `os.rename` / `shutil.move` / `os.makedirs` / `os.rmdir` are
  modelled with POSIX same-filesystem semantics and no symlinks, under
  which lexical normalization of `.` and `..` agrees with kernel path
  resolution.
* Fallible operations return `Except Str`; an uncaught Python exception is
  an `error` value that the transcribed caller either catches (per-line
  `try`) or propagates (aborting), exactly as in the source.
* `logging` output is not part of the modelled state.
-/

namespace Dope

/-- Python strings, modelled as lists of characters. -/
abbrev Str := List Char

/-- The single-quote character (used by the `shlex` model). -/
def sq : Char := Char.ofNat 39

/-- The double-quote character (used by the `shlex` model). -/
def dq : Char := Char.ofNat 34

/-- The backslash character (used by the `shlex` model). -/
def bs : Char := Char.ofNat 92

/-- Decidable equality for `Except` results. -/
instance {A B : Type} [DecidableEq A] [DecidableEq B] : DecidableEq (Except A B) := fun a b =>
  match a, b with
  | Except.error x, Except.error y =>
    if h : x = y then isTrue (congrArg Except.error h)
    else isFalse (fun hh => h (Except.error.inj hh))
  | Except.ok x, Except.ok y =>
    if h : x = y then isTrue (congrArg Except.ok h)
    else isFalse (fun hh => h (Except.ok.inj hh))
  | Except.error _, Except.ok _ => isFalse (fun hh => Except.noConfusion hh)
  | Except.ok _, Except.error _ => isFalse (fun hh => Except.noConfusion hh)

/-- An absolute path, as its list of name components from the root `/`. -/
abbrev Path := List Str

/-- A filesystem node: a directory, or a file with contents. -/
inductive Node where
  | dir : Node
  | file : Str → Node
deriving DecidableEq, Repr

/-- The filesystem: a finite association list from absolute (normalized)
paths to nodes.  The root `/` itself is implicit and always present. -/
abbrev FS := List (Path × Node)

/-- First node recorded at path `p` (model of a stat/lookup syscall). -/
def findNode : FS → Path → Option Node
  | [], _ => none
  | e :: rest, p => if e.1 = p then some e.2 else findNode rest p

/-- Model of `os.path.exists`. -/
def existsP (fs : FS) (p : Path) : Bool :=
  (findNode fs p).isSome

/-- Model of `os.path.isdir`. -/
def isDirP (fs : FS) (p : Path) : Bool :=
  findNode fs p = some Node.dir

/-- Number of immediate children of directory `p`
(model of `len(os.listdir(p))`). -/
def childCount (fs : FS) (p : Path) : Nat :=
  fs.countP (fun e => e.1.length = p.length + 1 ∧ p.isPrefixOf e.1)

/-! ### Path-string machinery (`os.path`) -/

/-- Split a character list at `/` separators (no separator dropping). -/
def splitSlash : Str → List Str
  | [] => [[]]
  | c :: rest =>
    if c = '/' then [] :: splitSlash rest
    else
      match splitSlash rest with
      | [] => [[c]]
      | h :: t => (c :: h) :: t

/-- Components of a path string: split at `/`, dropping empty components
(as `os.path.normpath` collapses repeated and trailing separators). -/
def pathComps (s : Str) : List Str :=
  (splitSlash s).filter (fun c => c ≠ [])

/-- Model of `os.path.join(desktopAbs, rel)` for a desktop given by its
components `D`: an absolute `rel` replaces the desktop entirely. -/
def joinAbs (D : Path) (rel : Str) : Path :=
  if rel.head? = some '/' then pathComps rel else D ++ pathComps rel

/-- Lexical normalization step of `os.path.normpath` on an absolute path:
drop `.` and empty components, resolve `..` (dropping it at the root). -/
def normAcc : List Str → List Str → List Str
  | acc, [] => acc.reverse
  | acc, c :: rest =>
    if c = ".".data then normAcc acc rest
    else if c = "..".data then normAcc (acc.drop 1) rest
    else if c = [] then normAcc acc rest
    else normAcc (c :: acc) rest

/-- Model of `os.path.normpath` (equivalently `os.path.abspath`, since every
path the program builds is already absolute) on components. -/
def normalizePath (p : Path) : Path := normAcc [] p

/-- The character string `/a/b/...` of a component list (empty for `[]`). -/
def pathChars (p : Path) : Str :=
  (p.map (fun c => '/' :: c)).flatten

/-- The printed absolute path of a component list (`/` for the root). -/
def absStr (p : Path) : Str :=
  if p = [] then ['/'] else pathChars p

/-- Model of `PlanExecutor._is_within_desktop`:
`os.path.abspath(path).startswith(desktop_dir + os.sep)`, with the desktop
given by its (already normalized) components `D`. -/
def isWithinDesktop (D : Path) (p : Path) : Bool :=
  (absStr D ++ ['/']).isPrefixOf (absStr (normalizePath p))

/-- Length of the common component run of two paths
(helper for `os.path.relpath`). -/
def commonLen : Path → Path → Nat
  | a :: as_, b :: bs_ => if a = b then commonLen as_ bs_ + 1 else 0
  | _, _ => 0

/-- Model of `os.path.relpath(p, start)` on normalized component lists:
`..` for each unshared `start` component, then the unshared tail of `p`. -/
def relpathComps (p start : Path) : List Str :=
  let n := commonLen p start
  List.replicate (start.length - n) "..".data ++ p.drop n

/-- The string `os.path.relpath` returns (components joined by `/`,
`.` when there are none).  Both arguments are normalized first, as
`os.path.relpath` does via `abspath`. -/
def relpathStr (p start : Path) : Str :=
  let comps := relpathComps (normalizePath p) (normalizePath start)
  if comps = [] then ".".data else (pathChars comps).drop 1

/-- Model of `os.path.basename` on an (unnormalized) joined path given
as a component list: its last component (`""` for the root).  Faithful
whenever the string path does not end in a separator; Python returns `""`
for the basename of a trailing-slash string, a case the component
quotient cannot represent, so the validity predicates (`relOk`) restrict
plan tokens to clean relative paths, for which the joined path never ends
in a separator. -/
def basenameOf (p : Path) : Str := p.getLastD []

/-! ### Filesystem mutation primitives -/

/-- Re-keying of one entry under a rename of subtree `src` to `dst`. -/
def rekeyEntry (src dst : Path) (e : Path × Node) : Path × Node :=
  if src.isPrefixOf e.1 then (dst ++ e.1.drop src.length, e.2) else e

/-- Remove the entry at `p` and everything below it. -/
def removeTree (fs : FS) (p : Path) : FS :=
  fs.filter (fun e => ¬ p.isPrefixOf e.1)

/-- Does the parent directory of `p` exist (the root `[]` always does)? -/
def parentOk (fs : FS) (p : Path) : Bool :=
  p ≠ [] ∧ (p.dropLast = [] ∨ isDirP fs p.dropLast = true)

/-- Model of `os.rename(src, dst)` on normalized paths, POSIX
same-filesystem semantics: renaming onto an existing empty directory or
onto an existing file succeeds (silently replacing it); renaming a file
onto a directory, a directory onto a file or onto a non-empty directory,
into itself, or with a missing source or destination parent fails. -/
def osRename (fs : FS) (src dst : Path) : Except Str FS :=
  match findNode fs src with
  | none => Except.error "ENOENT".data
  | some sn =>
    if src = dst then Except.ok fs
    else if src.isPrefixOf dst then Except.error "EINVAL".data
    else
      match findNode fs dst with
      | some Node.dir =>
        match sn with
        | Node.file _ => Except.error "EISDIR".data
        | Node.dir =>
          if childCount fs dst = 0 then
            Except.ok ((removeTree fs dst).map (rekeyEntry src dst))
          else Except.error "ENOTEMPTY".data
      | some (Node.file _) =>
        match sn with
        | Node.dir => Except.error "ENOTDIR".data
        | Node.file _ => Except.ok ((removeTree fs dst).map (rekeyEntry src dst))
      | none =>
        if parentOk fs dst then Except.ok (fs.map (rekeyEntry src dst))
        else Except.error "ENOENT".data

/-- Model of `shutil.move(src, dst)` (same filesystem, no symlinks), on
possibly unnormalized joined paths.  When `dst` is an existing directory
the entry is moved *into* it under `basename(src)`, failing if that slot
is taken; otherwise it is an `os.rename` (error cases of the copy fallback
collapse to errors as well). -/
def shutilMove (fs : FS) (src dst : Path) : Except Str FS :=
  let nsrc := normalizePath src
  let ndst := normalizePath dst
  if isDirP fs ndst then
    let real := normalizePath (ndst ++ [basenameOf src])
    if existsP fs real then Except.error "Destination path already exists".data
    else osRename fs nsrc real
  else osRename fs nsrc ndst

/-- All nonempty prefixes of `p`, shortest first
(the directories `os.makedirs` visits). -/
def ancestorsOf (p : Path) : List Path :=
  (List.range p.length).map (fun i => p.take (i + 1))

/-- One `mkdir` of the `os.makedirs` walk: create `q` if missing, skip an
existing directory (`exist_ok=True`), fail on an existing file. -/
def mkdirStep (acc : FS) (q : Path) : Except Str FS :=
  match findNode acc q with
  | none => Except.ok (acc ++ [(q, Node.dir)])
  | some Node.dir => Except.ok acc
  | some (Node.file _) => Except.error "NotADirectoryError".data

/-- Model of `os.makedirs(p, exist_ok=True)`: create every missing
ancestor; fail if some ancestor (or `p` itself) exists as a file. -/
def makedirs (fs : FS) (p : Path) : Except Str FS :=
  (ancestorsOf p).foldlM mkdirStep fs

/-- Model of `os.rmdir(p)` after the caller has checked that `p` is an
empty directory: remove the single entry at `p`. -/
def rmdirFS (fs : FS) (p : Path) : FS :=
  fs.filter (fun e => ¬ e.1 = p)

/-! ### The operation interpreter (`PlanExecutor`) -/

/-- One record of the rollback journal, mirroring the tuples the source
appends: `("RMDIR", rel)`, `("MOVE", new_rel, old_rel)`,
`("RENAME", new_rel, old_rel)`.  Fields keep tuple order. -/
inductive RCmd where
  | rmdir : Str → RCmd
  | move : Str → Str → RCmd
  | ren : Str → Str → RCmd
deriving DecidableEq, Repr

/-- A parsed plan operation (command word plus argument tokens). -/
inductive Op where
  | mkdir : Str → Op
  | move : Str → Str → Op
  | rename : Str → Str → Op
deriving DecidableEq, Repr

/-- Model of `PlanExecutor._mkdir`.  Returns the new filesystem and the
appended inverse record, if any. -/
def mkdirOp (D : Path) (fs : FS) (rel : Str) : Except Str (FS × Option RCmd) :=
  let target := joinAbs D rel
  if ¬ isWithinDesktop D target then
    Except.error "Attempt to create directory outside of desktop.".data
  else if ¬ existsP fs (normalizePath target) then
    match makedirs fs (normalizePath target) with
    | Except.error e => Except.error e
    | Except.ok fs' => Except.ok (fs', some (RCmd.rmdir rel))
  else
    Except.ok (fs, none)

/-- Model of `PlanExecutor._move` on component lists.  The component
quotient identifies a token with its nonempty `/`-separated components;
`os.path.exists`, `os.path.basename` and `shutil.move` treat
trailing-slash strings differently from their clean forms, so this model
is faithful for clean tokens only, and every theorem about it carries
`relOk` hypotheses restricting the arguments to exactly that set. -/
def moveOp (D : Path) (fs : FS) (srcRel dstRel : Str) : Except Str (FS × RCmd) :=
  let src := joinAbs D srcRel
  let dst := joinAbs D dstRel
  if ¬ (isWithinDesktop D src ∧ isWithinDesktop D dst) then
    Except.error "Attempt to move outside desktop.".data
  else if ¬ existsP fs (normalizePath src) then
    Except.error "Source file/folder does not exist for MOVE".data
  else
    let newPath := if isDirP fs (normalizePath dst) then dst ++ [basenameOf src] else dst
    match shutilMove fs src newPath with
    | Except.error e => Except.error e
    | Except.ok fs' =>
      Except.ok (fs', RCmd.move (relpathStr (normalizePath newPath) D)
                                (relpathStr (normalizePath src) D))

/-- Model of `PlanExecutor._rename`. -/
def renameOp (D : Path) (fs : FS) (oldRel newRel : Str) : Except Str (FS × RCmd) :=
  let oldP := joinAbs D oldRel
  let newP := joinAbs D newRel
  if ¬ (isWithinDesktop D oldP ∧ isWithinDesktop D newP) then
    Except.error "Attempt to rename outside desktop.".data
  else if ¬ existsP fs (normalizePath oldP) then
    Except.error "Old name does not exist for RENAME".data
  else
    match osRename fs (normalizePath oldP) (normalizePath newP) with
    | Except.error e => Except.error e
    | Except.ok fs' => Except.ok (fs', RCmd.ren newRel oldRel)

/-- Dispatch of one parsed operation, returning the records it appends. -/
def applyOp (D : Path) (fs : FS) : Op → Except Str (FS × List RCmd)
  | Op.mkdir rel =>
    match mkdirOp D fs rel with
    | Except.error e => Except.error e
    | Except.ok (fs', r) => Except.ok (fs', r.toList)
  | Op.move s d =>
    match moveOp D fs s d with
    | Except.error e => Except.error e
    | Except.ok (fs', r) => Except.ok (fs', [r])
  | Op.rename o n =>
    match renameOp D fs o n with
    | Except.error e => Except.error e
    | Except.ok (fs', r) => Except.ok (fs', [r])

/-- Running a list of parsed operations with the per-line failure policy of
`execute_plan`: an operation error is caught, logged and skipped. -/
def runPlan (D : Path) : FS → List Op → FS × List RCmd
  | fs, [] => (fs, [])
  | fs, op :: rest =>
    match applyOp D fs op with
    | Except.ok (fs', recs) =>
      let out := runPlan D fs' rest
      (out.1, recs ++ out.2)
    | Except.error _ => runPlan D fs rest

/-- Do all operations of the plan succeed, applied in sequence? -/
def opsOk (D : Path) : FS → List Op → Bool
  | _, [] => true
  | fs, op :: rest =>
    match applyOp D fs op with
    | Except.ok (fs', _) => opsOk D fs' rest
    | Except.error _ => false

/-! ### Line tokenization (`shlex.split`, POSIX mode) -/

/-- Python whitespace characters recognized by `str.strip` and `shlex`. -/
def isWS (c : Char) : Bool :=
  c = ' ' ∨ c = '\t' ∨ c = '\n' ∨ c = '\x0d' ∨ c = '\x0b' ∨ c = '\x0c'

/-- Model of `str.strip()`. -/
def trimStr (s : Str) : Str :=
  ((s.dropWhile isWS).reverse.dropWhile isWS).reverse

/-- Lexer states of the `shlex` state machine: outside quotes, inside
single quotes, inside double quotes, after a backslash outside quotes,
after a backslash inside double quotes. -/
inductive LexSt where
  | base | single | double | escB | escD
deriving DecidableEq, Repr

/-- The character state machine of `shlex.split` (POSIX,
`whitespace_split`, no comment characters): split at unquoted whitespace;
single quotes are fully literal; inside double quotes a backslash escapes
only `\\` and the double quote and is otherwise kept; outside quotes a
backslash makes the next character literal.  The errors are the
`ValueError`s of `shlex`: an unbalanced quote or a trailing escape. -/
def shlexRun : Str → LexSt → Option Str → Except Str (List Str)
  | [], LexSt.base, none => Except.ok []
  | [], LexSt.base, some t => Except.ok [t]
  | [], LexSt.single, _ => Except.error "No closing quotation".data
  | [], LexSt.double, _ => Except.error "No closing quotation".data
  | [], LexSt.escB, _ => Except.error "No escaped character".data
  | [], LexSt.escD, _ => Except.error "No escaped character".data
  | c :: rest, LexSt.base, acc =>
    if isWS c then
      match acc with
      | none => shlexRun rest LexSt.base none
      | some t =>
        match shlexRun rest LexSt.base none with
        | Except.ok ts => Except.ok (t :: ts)
        | Except.error e => Except.error e
    else if c = sq then shlexRun rest LexSt.single (some (acc.getD []))
    else if c = dq then shlexRun rest LexSt.double (some (acc.getD []))
    else if c = bs then shlexRun rest LexSt.escB (some (acc.getD []))
    else shlexRun rest LexSt.base (some (acc.getD [] ++ [c]))
  | c :: rest, LexSt.single, acc =>
    if c = sq then shlexRun rest LexSt.base acc
    else shlexRun rest LexSt.single (some (acc.getD [] ++ [c]))
  | c :: rest, LexSt.double, acc =>
    if c = dq then shlexRun rest LexSt.base acc
    else if c = bs then shlexRun rest LexSt.escD acc
    else shlexRun rest LexSt.double (some (acc.getD [] ++ [c]))
  | c :: rest, LexSt.escB, acc => shlexRun rest LexSt.base (some (acc.getD [] ++ [c]))
  | c :: rest, LexSt.escD, acc =>
    shlexRun rest LexSt.double
      (some (acc.getD [] ++ (if c = dq ∨ c = bs then [c] else [bs, c])))

/-- Model of `shlex.split`. -/
def shlexSplit (s : Str) : Except Str (List Str) := shlexRun s LexSt.base none

/-- Model of `str.upper()` (ASCII command words). -/
def upperStr (s : Str) : Str := s.map Char.toUpper

/-- The body of the per-line `try` block of `execute_plan`: dispatch on the
(upper-cased) command word, check arity, run the operation. -/
def dispatchParts (D : Path) (fs : FS) : List Str → Except Str (FS × List RCmd)
  | [] => Except.ok (fs, [])
  | c :: args =>
    let cmd := upperStr c
    if cmd = "MKDIR".data then
      match args with
      | [a] =>
        match mkdirOp D fs a with
        | Except.error e => Except.error e
        | Except.ok (fs', r) => Except.ok (fs', r.toList)
      | _ => Except.error "Invalid MKDIR syntax.".data
    else if cmd = "MOVE".data then
      match args with
      | [a, b] =>
        match moveOp D fs a b with
        | Except.error e => Except.error e
        | Except.ok (fs', r) => Except.ok (fs', [r])
      | _ => Except.error "Invalid MOVE syntax.".data
    else if cmd = "RENAME".data then
      match args with
      | [a, b] =>
        match renameOp D fs a b with
        | Except.error e => Except.error e
        | Except.ok (fs', r) => Except.ok (fs', [r])
      | _ => Except.error "Invalid RENAME syntax.".data
    else Except.error ("Unknown command".data)

/-- Model of `PlanExecutor.execute_plan` over the plan file's lines.
Returns the filesystem, the accumulated journal, and `some err` when the
run was aborted by an uncaught exception (leaving later lines
unprocessed).  Blank and `#` lines are skipped; a `shlex` `ValueError` is
re-raised as an `OperationError` *outside* the per-line `try` and
propagates; all errors inside the dispatch are caught and skipped. -/
def executePlan (D : Path) : FS → List RCmd → List Str → FS × List RCmd × Option Str
  | fs, journal, [] => (fs, journal, none)
  | fs, journal, line :: rest =>
    let l := trimStr line
    if l = [] ∨ l.head? = some '#' then executePlan D fs journal rest
    else
      match shlexSplit l with
      | Except.error e => (fs, journal, some ("Error parsing line: ".data ++ e))
      | Except.ok parts =>
        if parts = [] then executePlan D fs journal rest
        else
          match dispatchParts D fs parts with
          | Except.ok (fs', recs) => executePlan D fs' (journal ++ recs) rest
          | Except.error _ => executePlan D fs journal rest

/-! ### Rollback (`PlanExecutor.rollback`) -/

/-- Undo a single journal record, as one iteration of the `rollback` loop.
An `error` is an uncaught exception aborting the whole rollback. -/
def undoCmd (D : Path) (fs : FS) : RCmd → Except Str FS
  | RCmd.rmdir rel =>
    let dirPath := normalizePath (joinAbs D rel)
    if isDirP fs dirPath then
      if childCount fs dirPath = 0 then Except.ok (rmdirFS fs dirPath)
      else Except.ok fs
    else Except.ok fs
  | RCmd.move a b =>
    let srcP := joinAbs D a
    let dstP := joinAbs D b
    if existsP fs (normalizePath srcP) ∧ isWithinDesktop D dstP then
      shutilMove fs srcP dstP
    else Except.ok fs
  | RCmd.ren a b =>
    let oldP := joinAbs D a
    let newP := joinAbs D b
    if existsP fs (normalizePath oldP) then
      osRename fs (normalizePath oldP) (normalizePath newP)
    else Except.ok fs

/-- Process a list of records in the given order; an exception aborts with
the remaining records unprocessed. -/
def rollbackRun (D : Path) : FS → List RCmd → FS × Option Str
  | fs, [] => (fs, none)
  | fs, r :: rest =>
    match undoCmd D fs r with
    | Except.ok fs' => rollbackRun D fs' rest
    | Except.error e => (fs, some e)

/-- Model of `PlanExecutor.rollback`: the journal is processed in
reverse-of-insertion order. -/
def rollbackCmds (D : Path) (fs : FS) (journal : List RCmd) : FS × Option Str :=
  rollbackRun D fs journal.reverse

/-! ### Journal persistence and the execute-mode driver (`main`) -/

/-- The persisted journal file: `some j` when `.rollbackinfo.json` exists
with contents `j`, `none` when absent. -/
abbrev Disk := Option (List RCmd)

/-- Model of `save_rollback_info`. -/
def saveRollbackInfo (journal : List RCmd) : Disk := some journal

/-- Model of `load_rollback_info`. -/
def loadRollbackInfo (d : Disk) : Except Str (List RCmd) :=
  match d with
  | none => Except.error "No rollback information file found.".data
  | some j => Except.ok j

/-- `input().strip().lower() == 'y'`. -/
def confirmedYes (ans : Str) : Bool :=
  (trimStr ans).map Char.toLower = ['y']

/-- Final state of one `--mode execute` run. -/
structure RunResult where
  fs : FS
  disk : Disk
deriving DecidableEq, Repr

/-- Model of the `execute` branch of `main`: run the plan, persist the
journal, then commit (confirm answer `y`: delete the journal file) or
reload and roll back (delete the file only when rollback completes).
A plan-execution abort is caught in `main` before the journal is saved. -/
def executeMode (D : Path) (fs0 : FS) (disk0 : Disk) (lines : List Str) (ans : Str) :
    RunResult :=
  let out := executePlan D fs0 [] lines
  match out.2.2 with
  | some _ => ⟨out.1, disk0⟩
  | none =>
    let disk1 := saveRollbackInfo out.2.1
    if confirmedYes ans then ⟨out.1, none⟩
    else
      match loadRollbackInfo disk1 with
      | Except.error _ => ⟨out.1, disk1⟩
      | Except.ok j =>
        let rolled := rollbackRun D out.1 j.reverse
        match rolled.2 with
        | none => ⟨rolled.1, none⟩
        | some _ => ⟨rolled.1, disk1⟩

/-! ### Well-formed filesystems and valid plans -/

/-- A normal path component: nonempty, not `.` or `..`, no separator. -/
def normalName (c : Str) : Prop :=
  c ≠ [] ∧ c ≠ ".".data ∧ c ≠ "..".data ∧ '/' ∉ c

instance (c : Str) : Decidable (normalName c) := by
  unfold normalName; infer_instance

/-- A well-formed filesystem: no duplicate paths, no entry at the root,
normal name components, and every entry's parent is the root or an
existing directory. -/
def WfFS (fs : FS) : Prop :=
  (fs.map (fun e => e.1)).Nodup ∧
  ∀ e ∈ fs, e.1 ≠ [] ∧ (∀ c ∈ e.1, normalName c) ∧
    (e.1.dropLast = [] ∨ findNode fs e.1.dropLast = some Node.dir)

instance (fs : FS) : Decidable (WfFS fs) := by
  unfold WfFS; infer_instance

/-- A well-formed desktop root: nonempty, normal components. -/
def DOk (D : Path) : Prop :=
  D ≠ [] ∧ ∀ c ∈ D, normalName c

instance (D : Path) : Decidable (DOk D) := by
  unfold DOk; infer_instance

/-- A plan path token that is a *clean* relative path: splitting it at
`/` yields only normal components, so the token is nonempty and has no
leading, trailing or doubled separator and no `.` or `..` piece.  The
component-list embedding identifies a token with its nonempty components,
but Python distinguishes the tokens this predicate excludes (on a
trailing-slash path `os.path.basename` returns the empty string and
`os.path.exists` of a file is false), so every validity hypothesis
restricts plan tokens to this set, on which the embedding agrees with
the string-level functions of the source. -/
def relOk (s : Str) : Prop :=
  ∀ c ∈ splitSlash s, normalName c

instance (s : Str) : Decidable (relOk s) := by
  unfold relOk; infer_instance

/-- Strong validity of one operation against the current filesystem: the
operation succeeds, stays inside the desktop, its tokens are clean
relative paths, a `MKDIR` creates no intermediate directories, and a
`MOVE`/`RENAME` lands on a fresh path (no overwrite, not inside the moved
tree) whose parent directory exists. -/
def validOp (D : Path) (fs : FS) : Op → Prop
  | Op.mkdir rel =>
    relOk rel ∧
    isWithinDesktop D (joinAbs D rel) = true ∧
    existsP fs (joinAbs D rel) = false ∧
    isDirP fs (joinAbs D rel).dropLast = true
  | Op.move s d =>
    relOk s ∧ relOk d ∧
    isWithinDesktop D (joinAbs D s) = true ∧
    isWithinDesktop D (joinAbs D d) = true ∧
    existsP fs (joinAbs D s) = true ∧
    (let e := if isDirP fs (joinAbs D d) then joinAbs D d ++ [basenameOf (joinAbs D s)]
              else joinAbs D d
     existsP fs e = false ∧ isDirP fs e.dropLast = true ∧
       (joinAbs D s).isPrefixOf e = false)
  | Op.rename o n =>
    relOk o ∧ relOk n ∧
    isWithinDesktop D (joinAbs D o) = true ∧
    isWithinDesktop D (joinAbs D n) = true ∧
    existsP fs (joinAbs D o) = true ∧
    existsP fs (joinAbs D n) = false ∧
    isDirP fs (joinAbs D n).dropLast = true ∧
    (joinAbs D o).isPrefixOf (joinAbs D n) = false

instance (D : Path) (fs : FS) (op : Op) : Decidable (validOp D fs op) := by
  cases op <;> (unfold validOp; infer_instance)

/-- Strong validity of a plan: each operation is valid against the state
produced by its predecessors. -/
def validPlan (D : Path) : FS → List Op → Prop
  | _, [] => True
  | fs, op :: rest =>
    validOp D fs op ∧
    match applyOp D fs op with
    | Except.ok (fs', _) => validPlan D fs' rest
    | Except.error _ => False

instance (D : Path) (fs : FS) (ops : List Op) : Decidable (validPlan D fs ops) := by
  induction ops generalizing fs with
  | nil => exact isTrue trivial
  | cons op rest ih =>
    unfold validPlan
    rcases h : applyOp D fs op with e | p
    · exact instDecidableAnd
    · exact @instDecidableAnd _ _ _ (ih p.1)

/-! ### List and lookup lemmas -/

instance : Inhabited Node := ⟨Node.dir⟩

instance : Nonempty (Path × Node) := ⟨([], Node.dir)⟩

theorem isPre_iff {A : Type} [BEq A] [LawfulBEq A] :
    ∀ (l1 l2 : List A), l1.isPrefixOf l2 = true ↔ ∃ t, l1 ++ t = l2 := by
  intro l1
  induction l1 with
  | nil => intro l2; simp [List.isPrefixOf]
  | cons a l1 ih =>
    intro l2
    cases l2 with
    | nil => simp [List.isPrefixOf]
    | cons b l2 =>
      simp only [List.isPrefixOf, List.cons_append, Bool.and_eq_true, beq_iff_eq, ih l2,
        List.cons.injEq]
      constructor
      · rintro ⟨h1, t, h2⟩; exact ⟨t, h1, h2⟩
      · rintro ⟨t, h1, h2⟩; exact ⟨h1, t, h2⟩

theorem isPre_refl {A : Type} [BEq A] [LawfulBEq A] (l : List A) : l.isPrefixOf l = true := by
  rw [isPre_iff]; exact ⟨[], by simp⟩

theorem isPre_append {A : Type} [BEq A] [LawfulBEq A] (l t : List A) :
    l.isPrefixOf (l ++ t) = true := by
  rw [isPre_iff]; exact ⟨t, rfl⟩

theorem isPre_false_iff {A : Type} [BEq A] [LawfulBEq A] (l1 l2 : List A) :
    l1.isPrefixOf l2 = false ↔ ∀ t, l1 ++ t ≠ l2 := by
  rw [← Bool.not_eq_true, isPre_iff]
  simp

theorem findNode_append (l1 l2 : FS) (p : Path) :
    findNode (l1 ++ l2) p =
      match findNode l1 p with
      | some n => some n
      | none => findNode l2 p := by
  induction l1 with
  | nil => simp [findNode]
  | cons e rest ih =>
    by_cases he : e.1 = p
    · simp [findNode, he]
    · simp [findNode, he, ih]

theorem findNode_eq_none (fs : FS) (p : Path) :
    findNode fs p = none ↔ ∀ e ∈ fs, e.1 ≠ p := by
  induction fs with
  | nil => simp [findNode]
  | cons e rest ih =>
    by_cases he : e.1 = p
    · simp [findNode, he]
    · simp [findNode, he, ih]

theorem findNode_some_mem (fs : FS) (p : Path) (n : Node)
    (h : findNode fs p = some n) : (p, n) ∈ fs := by
  induction fs with
  | nil => simp [findNode] at h
  | cons e rest ih =>
    obtain ⟨k, v⟩ := e
    by_cases he : k = p
    · subst he
      simp [findNode] at h
      subst h
      exact List.mem_cons_self _ _
    · simp only [findNode, if_neg he] at h
      exact List.mem_cons_of_mem _ (ih h)

theorem findNode_isSome_iff (fs : FS) (p : Path) :
    (findNode fs p).isSome = true ↔ ∃ e ∈ fs, e.1 = p := by
  induction fs with
  | nil => simp [findNode]
  | cons e rest ih =>
    by_cases he : e.1 = p
    · simp [findNode, he]
    · simp [findNode, he, ih]

theorem findNode_keyFilter (fs : FS) (q : Path → Bool) (p : Path) :
    findNode (fs.filter (fun e => q e.1)) p =
      if q p = true then findNode fs p else none := by
  induction fs with
  | nil => simp [findNode]
  | cons e rest ih =>
    by_cases hq : q e.1
    · by_cases he : e.1 = p
      · subst he
        simp [findNode, List.filter_cons, hq]
      · simp [findNode, List.filter_cons, hq, he, ih]
    · by_cases he : e.1 = p
      · subst he
        simp only [Bool.not_eq_true] at hq
        simp [findNode, List.filter_cons, hq, ih]
      · simp only [Bool.not_eq_true] at hq
        simp [findNode, List.filter_cons, hq, he, ih]

/-! ### Normalization on normal components -/

theorem mem_normAcc : ∀ (p acc : List Str) (c : Str), c ∈ normAcc acc p → c ∈ acc ∨ c ∈ p := by
  intro p
  induction p with
  | nil => intro acc c h; simp [normAcc] at h; exact Or.inl h
  | cons x p ih =>
    intro acc c h
    by_cases h1 : x = ".".data
    · simp only [normAcc, if_pos h1] at h
      rcases ih acc c h with h2 | h2
      · exact Or.inl h2
      · exact Or.inr (List.mem_cons_of_mem _ h2)
    · by_cases h2 : x = "..".data
      · simp only [normAcc, if_neg h1, if_pos h2] at h
        rcases ih (acc.drop 1) c h with h3 | h3
        · exact Or.inl (List.mem_of_mem_drop h3)
        · exact Or.inr (List.mem_cons_of_mem _ h3)
      · by_cases h3 : x = []
        · simp only [normAcc, if_neg h1, if_neg h2, if_pos h3] at h
          rcases ih acc c h with h4 | h4
          · exact Or.inl h4
          · exact Or.inr (List.mem_cons_of_mem _ h4)
        · simp only [normAcc, if_neg h1, if_neg h2, if_neg h3] at h
          rcases ih (x :: acc) c h with h4 | h4
          · rcases List.mem_cons.1 h4 with h5 | h5
            · exact Or.inr (by rw [h5]; exact List.mem_cons_self _ _)
            · exact Or.inl h5
          · exact Or.inr (List.mem_cons_of_mem _ h4)

theorem normAcc_normal : ∀ (p acc : List Str), (∀ c ∈ p, normalName c) →
    normAcc acc p = acc.reverse ++ p := by
  intro p
  induction p with
  | nil => intro acc _; simp [normAcc]
  | cons x p ih =>
    intro acc hn
    have hx : normalName x := hn x (List.mem_cons_self _ _)
    obtain ⟨hx1, hx2, hx3, _⟩ := hx
    simp only [normAcc, if_neg hx2, if_neg hx3, if_neg hx1]
    rw [ih (x :: acc) (fun c hc => hn c (List.mem_cons_of_mem _ hc))]
    simp

theorem normalize_normal (p : Path) (h : ∀ c ∈ p, normalName c) :
    normalizePath p = p := by
  unfold normalizePath
  rw [normAcc_normal p [] h]
  simp

theorem mem_normalize (p : Path) (c : Str) (h : c ∈ normalizePath p) : c ∈ p := by
  rcases mem_normAcc p [] c h with h1 | h1
  · simp at h1
  · exact h1

/-! ### Path printing and parsing round trips -/

theorem splitSlash_ne_nil : ∀ s : Str, splitSlash s ≠ [] := by
  intro s
  cases s with
  | nil => simp [splitSlash]
  | cons c rest =>
    by_cases hc : c = '/'
    · simp [splitSlash, hc]
    · simp only [splitSlash, if_neg hc]
      cases h : splitSlash rest with
      | nil => simp
      | cons a b => simp

theorem splitSlash_append (c : Str) (s : Str) (hc : '/' ∉ c) :
    ∀ h t, splitSlash s = h :: t → splitSlash (c ++ s) = (c ++ h) :: t := by
  induction c with
  | nil => intro h t hs; simpa using hs
  | cons x c ih =>
    intro h t hs
    have hx : x ≠ '/' := by
      intro hx; exact hc (by rw [hx]; exact List.mem_cons_self _ _)
    have hc' : '/' ∉ c := fun hm => hc (List.mem_cons_of_mem _ hm)
    have h2 := ih hc' h t hs
    simp only [List.cons_append, splitSlash, if_neg (fun he => hx he), List.append_eq, h2]

/-- The printed relative form of a component list (no leading slash). -/
def relChars (p : Path) : Str := (pathChars p).drop 1

theorem pathChars_cons (c : Str) (p : Path) :
    pathChars (c :: p) = '/' :: (c ++ pathChars p) := by
  simp [pathChars]

theorem splitSlash_relChars : ∀ p : Path, p ≠ [] → (∀ c ∈ p, normalName c) →
    splitSlash (relChars p) = p := by
  intro p
  induction p with
  | nil => intro h; exact absurd rfl h
  | cons c rest ih =>
    intro _ hn
    have hc : normalName c := hn c (List.mem_cons_self _ _)
    obtain ⟨hc1, _, _, hc4⟩ := hc
    cases rest with
    | nil =>
      have : splitSlash ([] : Str) = [[]] := by simp [splitSlash]
      have h2 := splitSlash_append c [] hc4 [] [] this
      simpa [relChars, pathChars] using h2
    | cons d rest' =>
      have hrest : splitSlash (relChars (d :: rest')) = d :: rest' :=
        ih (by simp) (fun x hx => hn x (List.mem_cons_of_mem _ hx))
      have hsl : splitSlash ('/' :: relChars (d :: rest')) = [] :: d :: rest' := by
        simp [splitSlash, hrest]
      have h2 := splitSlash_append c ('/' :: relChars (d :: rest')) hc4 _ _ hsl
      have h3 : relChars (c :: d :: rest') = c ++ '/' :: relChars (d :: rest') := by
        simp [relChars, pathChars_cons, pathChars]
      rw [h3, h2]
      simp

theorem pathComps_relChars (p : Path) (hne : p ≠ []) (hn : ∀ c ∈ p, normalName c) :
    pathComps (relChars p) = p := by
  unfold pathComps
  rw [splitSlash_relChars p hne hn]
  rw [List.filter_eq_self]
  intro c hc
  have := (hn c hc).1
  simpa using this

theorem relChars_head (p : Path) (hne : p ≠ []) (hn : ∀ c ∈ p, normalName c) :
    (relChars p).head? ≠ some '/' := by
  cases p with
  | nil => exact absurd rfl hne
  | cons c rest =>
    have hc := hn c (List.mem_cons_self _ _)
    obtain ⟨hc1, _, _, hc4⟩ := hc
    cases hcc : c with
    | nil => exact absurd hcc hc1
    | cons x xs =>
      have hx : x ≠ '/' := by
        intro hx
        exact hc4 (by rw [hcc, hx]; exact List.mem_cons_self _ _)
      simp [relChars, pathChars_cons, hcc, hx]

theorem joinAbs_relChars (D : Path) (p : Path) (hne : p ≠ [])
    (hn : ∀ c ∈ p, normalName c) : joinAbs D (relChars p) = D ++ p := by
  unfold joinAbs
  rw [if_neg (relChars_head p hne hn), pathComps_relChars p hne hn]

theorem commonLen_append (D t : Path) : commonLen (D ++ t) D = D.length := by
  induction D with
  | nil => cases t with
    | nil => simp [commonLen]
    | cons a b => simp [commonLen]
  | cons d D ih => simp [commonLen, ih]

theorem relpathStr_append (D : Path) (t : Path) (hne : t ≠ [])
    (hD : ∀ c ∈ D, normalName c) (ht : ∀ c ∈ t, normalName c) :
    relpathStr (D ++ t) D = relChars t := by
  unfold relpathStr relpathComps
  have hDt : ∀ c ∈ D ++ t, normalName c := by
    intro c hc
    rcases List.mem_append.1 hc with h | h
    · exact hD c h
    · exact ht c h
  rw [normalize_normal (D ++ t) hDt, normalize_normal D hD]
  simp only [commonLen_append, Nat.sub_self, List.replicate_zero, List.nil_append,
    List.drop_left]
  rw [if_neg (by simpa using hne)]
  simp [relChars]

/-- A round trip: the relative string recorded for `D ++ t` parses back to
the absolute path `D ++ t`. -/
theorem joinAbs_relpathStr (D : Path) (t : Path) (hne : t ≠ [])
    (hD : ∀ c ∈ D, normalName c) (ht : ∀ c ∈ t, normalName c) :
    joinAbs D (relpathStr (D ++ t) D) = D ++ t := by
  rw [relpathStr_append D t hne hD ht, joinAbs_relChars D t hne ht]

/-! ### Characterizing the path guard -/

theorem pathChars_ne_nil (p : Path) (h : p ≠ []) :
    pathChars p = '/' :: relChars p := by
  cases p with
  | nil => exact absurd rfl h
  | cons c rest => simp [pathChars_cons, relChars]

theorem comp_eq_of_eq_append :
    ∀ (d q u w : Str), '/' ∉ d → '/' ∉ q →
      d ++ '/' :: u = q ++ '/' :: w → d = q ∧ u = w := by
  intro d
  induction d with
  | nil =>
    intro q u w _ hq h
    cases q with
    | nil => simpa using h
    | cons x q' =>
      simp only [List.nil_append, List.cons_append, List.cons.injEq] at h
      exact absurd (by rw [h.1]; exact List.mem_cons_self _ _) hq
  | cons a d' ih =>
    intro q u w hd hq h
    cases q with
    | nil =>
      simp only [List.cons_append, List.nil_append, List.cons.injEq] at h
      exact absurd (by rw [← h.1]; exact List.mem_cons_self _ _) hd
    | cons b q' =>
      simp only [List.cons_append, List.cons.injEq] at h
      have hd' : '/' ∉ d' := fun hm => hd (List.mem_cons_of_mem _ hm)
      have hq' : '/' ∉ q' := fun hm => hq (List.mem_cons_of_mem _ hm)
      have h2 := ih q' u w hd' hq' h.2
      exact ⟨by rw [h.1, h2.1], h2.2⟩

theorem tails_pre :
    ∀ (D : Path), (∀ c ∈ D, c ≠ [] ∧ '/' ∉ c) →
      ∀ (P : Path), (∀ c ∈ P, c ≠ [] ∧ '/' ∉ c) →
        ((∃ t, pathChars D ++ '/' :: t = pathChars P) ↔ ∃ u, u ≠ [] ∧ D ++ u = P) := by
  intro D
  induction D with
  | nil =>
    intro _ P hP
    cases P with
    | nil =>
      simp only [pathChars, List.map_nil, List.flatten_nil, List.nil_append]
      constructor
      · rintro ⟨t, ht⟩; exact absurd ht (by simp)
      · rintro ⟨u, hu, h⟩; exact absurd h (by simpa using hu)
    | cons q Q =>
      simp only [pathChars, List.map_nil, List.flatten_nil, List.nil_append]
      constructor
      · rintro ⟨t, _⟩
        exact ⟨q :: Q, by simp, by simp⟩
      · rintro ⟨u, _, _⟩
        exact ⟨q ++ pathChars Q, by simp [pathChars_cons, pathChars]⟩
  | cons d D' ih =>
    intro hD P hP
    have hd := hD d (List.mem_cons_self _ _)
    have hD' : ∀ c ∈ D', c ≠ [] ∧ '/' ∉ c := fun c hc => hD c (List.mem_cons_of_mem _ hc)
    cases P with
    | nil =>
      constructor
      · rintro ⟨t, ht⟩
        rw [pathChars_cons] at ht
        simp only [pathChars, List.map_nil, List.flatten_nil] at ht
        exact absurd ht (by simp)
      · rintro ⟨u, hu, h⟩
        exact absurd h (by simp)
    | cons q Q =>
      have hq := hP q (List.mem_cons_self _ _)
      have hQ : ∀ c ∈ Q, c ≠ [] ∧ '/' ∉ c := fun c hc => hP c (List.mem_cons_of_mem _ hc)
      constructor
      · rintro ⟨t, ht⟩
        rw [pathChars_cons, pathChars_cons] at ht
        simp only [List.cons_append, List.cons.injEq, true_and] at ht
        rw [List.append_assoc] at ht
        cases hQc : Q with
        | nil =>
          rw [hQc] at ht
          simp only [pathChars, List.map_nil, List.flatten_nil, List.append_nil] at ht
          have hmem : '/' ∈ q := by
            rw [← ht]
            simp
          exact absurd hmem hq.2
        | cons Q0 Q'' =>
          rw [hQc] at ht
          rw [pathChars_ne_nil (Q0 :: Q'') (by simp)] at ht
          cases hD'c : D' with
          | nil =>
            rw [hD'c] at ht
            simp only [pathChars, List.map_nil, List.flatten_nil, List.nil_append] at ht
            have hcomp := comp_eq_of_eq_append d q _ _ hd.2 hq.2 ht
            refine ⟨Q0 :: Q'', by simp, ?_⟩
            rw [hcomp.1]
            simp
          | cons e E =>
            rw [hD'c] at ht
            rw [pathChars_ne_nil (e :: E) (by simp)] at ht
            simp only [List.cons_append] at ht
            have hcomp := comp_eq_of_eq_append d q _ _ hd.2 hq.2 ht
            have htail : pathChars D' ++ '/' :: t = pathChars Q := by
              rw [hD'c, hQc, pathChars_ne_nil (e :: E) (by simp),
                pathChars_ne_nil (Q0 :: Q'') (by simp)]
              simp only [List.cons_append, List.cons.injEq, true_and]
              exact hcomp.2
            have hIH := (ih hD' Q hQ).1 ⟨t, htail⟩
            obtain ⟨u, hune, hu⟩ := hIH
            refine ⟨u, hune, ?_⟩
            rw [List.cons_append, hcomp.1, ← hD'c, hu, hQc]
      · rintro ⟨u, hune, hu⟩
        rw [List.cons_append] at hu
        have hdq : d = q := by
          have := congrArg (fun l => List.head? l) hu
          simpa using this
        have hDu : D' ++ u = Q := by
          have := congrArg (fun l => List.tail l) hu
          simpa using this
        have hIH := (ih hD' Q hQ).2 ⟨u, hune, hDu⟩
        obtain ⟨t, htp⟩ := hIH
        refine ⟨t, ?_⟩
        rw [pathChars_cons, pathChars_cons, hdq]
        simp only [List.cons_append, List.cons.injEq, true_and]
        rw [List.append_assoc, htp]

theorem normAcc_good : ∀ (p acc : List Str) (c : Str), (∀ a ∈ acc, a ≠ []) →
    c ∈ normAcc acc p → c ≠ [] := by
  intro p
  induction p with
  | nil =>
    intro acc c hacc h
    simp only [normAcc] at h
    exact hacc c (by simpa using h)
  | cons x p ih =>
    intro acc c hacc h
    by_cases h1 : x = ".".data
    · exact ih acc c hacc (by simpa [normAcc, h1] using h)
    · by_cases h2 : x = "..".data
      · refine ih (acc.drop 1) c ?_ (by simpa [normAcc, h1, h2] using h)
        intro a ha; exact hacc a (List.mem_of_mem_drop ha)
      · by_cases h3 : x = []
        · exact ih acc c hacc (by simpa [normAcc, h1, h2, h3] using h)
        · refine ih (x :: acc) c ?_ (by simpa [normAcc, h1, h2, h3] using h)
          intro a ha
          rcases List.mem_cons.1 ha with h4 | h4
          · rw [h4]; exact h3
          · exact hacc a h4

/-- The guard accepts exactly the paths whose normalized form lies
*strictly* inside the desktop (is the desktop plus a nonempty suffix),
provided all components involved are nonempty and separator-free. -/
theorem isWithinDesktop_iff (D P : Path) (hDne : D ≠ [])
    (hD : ∀ c ∈ D, c ≠ [] ∧ '/' ∉ c) (hP : ∀ c ∈ P, '/' ∉ c) :
    isWithinDesktop D P = true ↔ ∃ u, u ≠ [] ∧ D ++ u = normalizePath P := by
  have hP' : ∀ c ∈ normalizePath P, c ≠ [] ∧ '/' ∉ c := by
    intro c hc
    exact ⟨normAcc_good P [] c (by simp) hc, hP c (mem_normalize P c hc)⟩
  unfold isWithinDesktop
  rw [isPre_iff]
  rw [show absStr D = pathChars D from if_neg hDne]
  cases hnp : normalizePath P with
  | nil =>
    simp only [absStr, if_pos rfl]
    constructor
    · rintro ⟨t, ht⟩
      rw [pathChars_ne_nil D hDne] at ht
      simp only [List.cons_append, List.cons.injEq, true_and] at ht
      exact absurd ht (by simp)
    · rintro ⟨u, hune, hu⟩
      exact absurd hu (by simp [hDne])
  | cons q Q =>
    rw [show absStr (q :: Q) = pathChars (q :: Q) from if_neg (by simp)]
    rw [← hnp]
    have h2 := tails_pre D hD (normalizePath P) hP'
    constructor
    · rintro ⟨t, ht⟩
      refine (h2.1 ⟨t, ?_⟩)
      rw [← ht]
      simp
    · intro h3
      obtain ⟨t, ht⟩ := h2.2 h3
      refine ⟨t, ?_⟩
      rw [← ht]
      simp

/-! ### Prefix helpers -/

theorem pre_append_drop {A : Type} [BEq A] [LawfulBEq A] (a b : List A)
    (h : a.isPrefixOf b = true) : a ++ b.drop a.length = b := by
  obtain ⟨t, ht⟩ := (isPre_iff a b).1 h
  rw [← ht, List.drop_left]

theorem isPre_trans {A : Type} [BEq A] [LawfulBEq A] (a b c : List A)
    (h1 : a.isPrefixOf b = true) (h2 : b.isPrefixOf c = true) :
    a.isPrefixOf c = true := by
  obtain ⟨t1, ht1⟩ := (isPre_iff a b).1 h1
  obtain ⟨t2, ht2⟩ := (isPre_iff b c).1 h2
  exact (isPre_iff a c).2 ⟨t1 ++ t2, by rw [← List.append_assoc, ht1, ht2]⟩

/-! ### Well-formedness consequences -/

theorem ancestors_dir_aux (fs : FS) (hwf : WfFS fs) :
    ∀ (n : Nat) (k : Path), k.length ≤ n → (∃ v, (k, v) ∈ fs) →
      ∀ q, q ≠ [] → (∃ t, t ≠ [] ∧ q ++ t = k) →
        findNode fs q = some Node.dir := by
  intro n
  induction n with
  | zero =>
    rintro k hk ⟨v, hv⟩ q hq ⟨t, htne, ht⟩
    have hkne : k ≠ [] := (hwf.2 (k, v) hv).1
    cases k with
    | nil => exact absurd rfl hkne
    | cons a b => simp at hk
  | succ n ih =>
    rintro k hk ⟨v, hv⟩ q hq ⟨t, htne, ht⟩
    have hkne : k ≠ [] := (hwf.2 (k, v) hv).1
    have hcl := (hwf.2 (k, v) hv).2.2
    have hkd : k.dropLast = q ++ t.dropLast := by
      rw [← ht, List.dropLast_append_of_ne_nil q htne]
    by_cases hts : t.dropLast = []
    · have hq_eq : k.dropLast = q := by rw [hkd, hts, List.append_nil]
      rcases hcl with h0 | h0
      · rw [hq_eq] at h0; exact absurd h0 hq
      · rw [hq_eq] at h0; exact h0
    · rcases hcl with h0 | h0
      · rw [hkd] at h0
        exact absurd (List.append_eq_nil.1 h0).1 hq
      · have hmem := findNode_some_mem fs _ _ h0
        have hlen : k.dropLast.length ≤ n := by
          have h1 := List.length_dropLast k
          have h2 : 1 ≤ k.length := by
            cases k with
            | nil => exact absurd rfl hkne
            | cons a b => simp
          omega
        exact ih k.dropLast hlen ⟨Node.dir, hmem⟩ q hq ⟨t.dropLast, hts, hkd.symm⟩

/-- In a well-formed filesystem, every strict nonempty ancestor of an
existing path is a directory. -/
theorem ancestors_dir (fs : FS) (hwf : WfFS fs) (k : Path) (v : Node)
    (hkv : (k, v) ∈ fs) (q : Path) (hq : q ≠ [])
    (t : Path) (htne : t ≠ []) (ht : q ++ t = k) :
    findNode fs q = some Node.dir :=
  ancestors_dir_aux fs hwf k.length k (Nat.le_refl _) ⟨v, hkv⟩ q hq ⟨t, htne, ht⟩

/-- If `e` is absent from a well-formed filesystem, no entry lies at or
below `e`. -/
theorem keys_not_under (fs : FS) (hwf : WfFS fs) (e : Path)
    (hnone : findNode fs e = none) (hene : e ≠ []) :
    ∀ k v, (k, v) ∈ fs → e.isPrefixOf k = false := by
  intro k v hkv
  rw [isPre_false_iff]
  intro t ht
  cases t with
  | nil =>
    simp only [List.append_nil] at ht
    exact (findNode_eq_none fs e).1 hnone (k, v) hkv (by rw [ht])
  | cons a b =>
    have := ancestors_dir fs hwf k v hkv e hene (a :: b) (by simp) ht
    rw [hnone] at this
    exact Option.noConfusion this

/-! ### Lookup after a subtree re-keying -/

theorem findNode_rekey_under (ns eP : Path) :
    ∀ (fs : FS), (∀ k v, (k, v) ∈ fs → eP.isPrefixOf k = false) → ∀ (d : Path),
      findNode (fs.map (rekeyEntry ns eP)) (eP ++ d) = findNode fs (ns ++ d) := by
  intro fs
  induction fs with
  | nil => intro _ d; simp [findNode]
  | cons ent fs ih =>
    obtain ⟨k, v⟩ := ent
    intro hfree d
    have hk : eP.isPrefixOf k = false := hfree k v (List.mem_cons_self _ _)
    have hfree' : ∀ k v, (k, v) ∈ fs → eP.isPrefixOf k = false :=
      fun k v hm => hfree k v (List.mem_cons_of_mem _ hm)
    by_cases hns : ns.isPrefixOf k = true
    · have hhead : rekeyEntry ns eP (k, v) = (eP ++ k.drop ns.length, v) := by
        simp [rekeyEntry, hns]
      simp only [List.map_cons, hhead, findNode]
      by_cases hkd : k = ns ++ d
      · have h1 : eP ++ k.drop ns.length = eP ++ d := by
          rw [hkd, List.drop_left]
        rw [if_pos h1, if_pos hkd]
      · have h1 : eP ++ k.drop ns.length ≠ eP ++ d := by
          intro hcon
          apply hkd
          have h2 : k.drop ns.length = d := List.append_cancel_left hcon
          rw [← h2, pre_append_drop ns k hns]
        rw [if_neg h1, if_neg hkd, ih hfree' d]
    · have hhead : rekeyEntry ns eP (k, v) = (k, v) := by
        simp [rekeyEntry, hns]
      simp only [List.map_cons, hhead, findNode]
      have h1 : k ≠ eP ++ d := by
        intro hcon
        rw [hcon] at hk
        rw [isPre_append] at hk
        exact Bool.noConfusion hk
      have h2 : k ≠ ns ++ d := by
        intro hcon
        rw [hcon] at hns
        exact hns (isPre_append ns d)
      rw [if_neg h1, if_neg h2, ih hfree' d]

theorem findNode_rekey_gone (ns eP : Path) :
    ∀ (fs : FS), (∀ k v, (k, v) ∈ fs → eP.isPrefixOf k = false) → ∀ (q : Path),
      ns.isPrefixOf q = true → eP.isPrefixOf q = false →
      findNode (fs.map (rekeyEntry ns eP)) q = none := by
  intro fs
  induction fs with
  | nil => intro _ q _ _; simp [findNode]
  | cons ent fs ih =>
    obtain ⟨k, v⟩ := ent
    intro hfree q hq2 hq1
    have hfree' : ∀ k v, (k, v) ∈ fs → eP.isPrefixOf k = false :=
      fun k v hm => hfree k v (List.mem_cons_of_mem _ hm)
    by_cases hns : ns.isPrefixOf k = true
    · have hhead : rekeyEntry ns eP (k, v) = (eP ++ k.drop ns.length, v) := by
        simp [rekeyEntry, hns]
      simp only [List.map_cons, hhead, findNode]
      have h1 : eP ++ k.drop ns.length ≠ q := by
        intro hcon
        rw [← hcon] at hq1
        rw [isPre_append] at hq1
        exact Bool.noConfusion hq1
      rw [if_neg h1]
      exact ih hfree' q hq2 hq1
    · have hhead : rekeyEntry ns eP (k, v) = (k, v) := by
        simp [rekeyEntry, hns]
      simp only [List.map_cons, hhead, findNode]
      have h1 : k ≠ q := by
        intro hcon
        rw [hcon] at hns
        exact hns hq2
      rw [if_neg h1]
      exact ih hfree' q hq2 hq1

theorem findNode_rekey_other (ns eP : Path) :
    ∀ (fs : FS), ∀ (q : Path),
      ns.isPrefixOf q = false → eP.isPrefixOf q = false →
      findNode (fs.map (rekeyEntry ns eP)) q = findNode fs q := by
  intro fs
  induction fs with
  | nil => intro q _ _; simp [findNode]
  | cons ent fs ih =>
    obtain ⟨k, v⟩ := ent
    intro q hq2 hq1
    by_cases hns : ns.isPrefixOf k = true
    · have hhead : rekeyEntry ns eP (k, v) = (eP ++ k.drop ns.length, v) := by
        simp [rekeyEntry, hns]
      simp only [List.map_cons, hhead, findNode]
      have h1 : eP ++ k.drop ns.length ≠ q := by
        intro hcon
        rw [← hcon] at hq1
        rw [isPre_append] at hq1
        exact Bool.noConfusion hq1
      have h2 : k ≠ q := by
        intro hcon
        rw [hcon] at hns
        rw [hq2] at hns
        exact Bool.noConfusion hns
      rw [if_neg h1, if_neg h2, ih q hq2 hq1]
    · have hhead : rekeyEntry ns eP (k, v) = (k, v) := by
        simp [rekeyEntry, hns]
      simp only [List.map_cons, hhead, findNode]
      by_cases h1 : k = q
      · rw [if_pos h1, if_pos h1]
      · rw [if_neg h1, if_neg h1, ih q hq2 hq1]

/-! ### `makedirs` lemmas -/

theorem ancestorsOf_concat (p : Path) (h : p ≠ []) :
    ancestorsOf p = ancestorsOf p.dropLast ++ [p] := by
  obtain ⟨q, x, hqx⟩ : ∃ q x, p = q ++ [x] := by
    cases hp : p.reverse with
    | nil => exact absurd (by simpa using congrArg List.reverse hp) h
    | cons a b =>
      refine ⟨b.reverse, a, ?_⟩
      have h2 := congrArg List.reverse hp
      simpa using h2
  subst hqx
  have hlen : (q ++ [x]).length = q.length + 1 := by simp
  have hdl : (q ++ [x]).dropLast = q := by simp
  unfold ancestorsOf
  rw [hlen, hdl, List.range_succ, List.map_append]
  congr 1
  · apply List.map_congr_left
    intro i hi
    have hi' : i < q.length := List.mem_range.1 hi
    rw [List.take_append_of_le_length (by omega)]
  · simp

theorem foldlM_mkdirStep_dirs :
    ∀ (qs : List Path) (fs : FS), (∀ q ∈ qs, findNode fs q = some Node.dir) →
      qs.foldlM mkdirStep fs = Except.ok fs := by
  intro qs
  induction qs with
  | nil => intro fs _; rfl
  | cons q qs ih =>
    intro fs hd
    have h1 : mkdirStep fs q = Except.ok fs := by
      unfold mkdirStep
      rw [hd q (List.mem_cons_self _ _)]
    rw [List.foldlM_cons, h1]
    exact ih fs (fun r hr => hd r (List.mem_cons_of_mem _ hr))

theorem mem_ancestorsOf (p q : Path) (hq : q ∈ ancestorsOf p) :
    q ≠ [] ∧ ∃ t, q ++ t = p := by
  unfold ancestorsOf at hq
  obtain ⟨i, hi, hq⟩ := List.mem_map.1 hq
  have hi' : i < p.length := List.mem_range.1 hi
  subst hq
  constructor
  · intro hcon
    have h2 := congrArg List.length hcon
    rw [List.length_take] at h2
    simp only [List.length_nil] at h2
    omega
  · exact ⟨p.drop (i + 1), List.take_append_drop _ _⟩

/-- `os.makedirs` when every strict ancestor of the (missing) target is an
existing directory: appends exactly the target entry. -/
theorem makedirs_fresh (fs : FS) (p : Path) (hne : p ≠ [])
    (hanc : ∀ q, q ≠ [] → (∃ t, t ≠ [] ∧ q ++ t = p) → findNode fs q = some Node.dir)
    (hnone : findNode fs p = none) :
    makedirs fs p = Except.ok (fs ++ [(p, Node.dir)]) := by
  unfold makedirs
  rw [ancestorsOf_concat p hne, List.foldlM_append]
  have hinit : (ancestorsOf p.dropLast).foldlM mkdirStep fs = Except.ok fs := by
    apply foldlM_mkdirStep_dirs
    intro q hq
    obtain ⟨hqne, t, ht⟩ := mem_ancestorsOf p.dropLast q hq
    apply hanc q hqne
    refine ⟨t ++ [p.getLast hne], by simp, ?_⟩
    rw [← List.append_assoc, ht, List.dropLast_append_getLast hne]
  rw [hinit]
  show (Except.ok fs >>= fun b => [p].foldlM mkdirStep b) = _
  rw [show (Except.ok fs >>= fun b => [p].foldlM mkdirStep b) = [p].foldlM mkdirStep fs from rfl]
  rw [List.foldlM_cons]
  unfold mkdirStep
  rw [hnone]
  rfl

theorem mkdirStep_mono (fs fs2 : FS) (q p : Path) (n : Node)
    (hstep : mkdirStep fs q = Except.ok fs2) (hfind : findNode fs p = some n) :
    findNode fs2 p = some n := by
  unfold mkdirStep at hstep
  cases hf : findNode fs q with
  | none =>
    rw [hf] at hstep
    have h2 : fs2 = fs ++ [(q, Node.dir)] := by
      cases hstep; rfl
    rw [h2, findNode_append, hfind]
  | some n2 =>
    rw [hf] at hstep
    cases n2 with
    | dir =>
      have h2 : fs2 = fs := by cases hstep; rfl
      rw [h2, hfind]
    | file c => exact Except.noConfusion hstep

theorem mkdirStep_post (fs fs2 : FS) (q : Path)
    (hstep : mkdirStep fs q = Except.ok fs2) : ∃ n, findNode fs2 q = some n := by
  unfold mkdirStep at hstep
  cases hf : findNode fs q with
  | none =>
    rw [hf] at hstep
    have h2 : fs2 = fs ++ [(q, Node.dir)] := by cases hstep; rfl
    refine ⟨Node.dir, ?_⟩
    rw [h2, findNode_append, hf]
    simp [findNode]
  | some n2 =>
    rw [hf] at hstep
    cases n2 with
    | dir =>
      have h2 : fs2 = fs := by cases hstep; rfl
      exact ⟨Node.dir, by rw [h2, hf]⟩
    | file c => exact Except.noConfusion hstep

theorem foldlM_mkdirStep_mono :
    ∀ (qs : List Path) (fs fs2 : FS) (p : Path) (n : Node),
      qs.foldlM mkdirStep fs = Except.ok fs2 → findNode fs p = some n →
      findNode fs2 p = some n := by
  intro qs
  induction qs with
  | nil =>
    intro fs fs2 p n h hf
    cases h
    exact hf
  | cons q qs ih =>
    intro fs fs2 p n h hf
    rw [List.foldlM_cons] at h
    cases hstep : mkdirStep fs q with
    | error e => rw [hstep] at h; exact Except.noConfusion h
    | ok fsm =>
      rw [hstep] at h
      exact ih fsm fs2 p n h (mkdirStep_mono fs fsm q p n hstep hf)

/-- After a successful `makedirs`, the target exists. -/
theorem makedirs_find (fs fs2 : FS) (p : Path) (hne : p ≠ [])
    (h : makedirs fs p = Except.ok fs2) : ∃ n, findNode fs2 p = some n := by
  unfold makedirs at h
  rw [ancestorsOf_concat p hne, List.foldlM_append] at h
  cases hinit : (ancestorsOf p.dropLast).foldlM mkdirStep fs with
  | error e => rw [hinit] at h; exact Except.noConfusion h
  | ok fsm =>
    rw [hinit] at h
    rw [show (Except.ok fsm >>= fun b => [p].foldlM mkdirStep b) = [p].foldlM mkdirStep fsm
      from rfl] at h
    rw [List.foldlM_cons] at h
    cases hstep : mkdirStep fsm p with
    | error e => rw [hstep] at h; exact Except.noConfusion h
    | ok fsl =>
      rw [hstep] at h
      have h2 : fsl = fs2 := by cases h; rfl
      obtain ⟨n, hn⟩ := mkdirStep_post fsm fsl p hstep
      exact ⟨n, by rw [← h2]; exact hn⟩

/-- In a well-formed filesystem, all strict nonempty ancestors of a target
whose parent is a directory are directories. -/
theorem parent_dir_anc (fs : FS) (hwf : WfFS fs) (p : Path)
    (hpar : findNode fs p.dropLast = some Node.dir) :
    ∀ q, q ≠ [] → (∃ t, t ≠ [] ∧ q ++ t = p) → findNode fs q = some Node.dir := by
  rintro q hq ⟨t, htne, ht⟩
  have hkd : p.dropLast = q ++ t.dropLast := by
    rw [← ht, List.dropLast_append_of_ne_nil q htne]
  by_cases hts : t.dropLast = []
  · rw [hkd, hts, List.append_nil] at hpar
    exact hpar
  · have hmem := findNode_some_mem fs _ _ hpar
    exact ancestors_dir fs hwf p.dropLast Node.dir hmem q hq t.dropLast hts hkd.symm

/-! ### `os.rename` to a fresh destination: forward, backward, invariance -/

theorem isDirP_iff (fs : FS) (p : Path) :
    isDirP fs p = true ↔ findNode fs p = some Node.dir := by
  simp [isDirP]

theorem existsP_iff (fs : FS) (p : Path) :
    existsP fs p = true ↔ ∃ n, findNode fs p = some n := by
  simp [existsP, Option.isSome_iff_exists]

theorem existsP_false_iff (fs : FS) (p : Path) :
    existsP fs p = false ↔ findNode fs p = none := by
  unfold existsP
  cases findNode fs p <;> simp

theorem isPre_dropLast {A : Type} [BEq A] [LawfulBEq A] (l : List A) :
    l.dropLast.isPrefixOf l = true := by
  rw [isPre_iff]
  cases hl : l.reverse with
  | nil =>
    have h2 : l = [] := by simpa using congrArg List.reverse hl
    exact ⟨[], by simp [h2]⟩
  | cons a b =>
    have h2 : l = b.reverse ++ [a] := by
      have h3 := congrArg List.reverse hl
      simpa using h3
    refine ⟨[a], ?_⟩
    rw [h2]
    simp

theorem isPre_len_false {A : Type} [BEq A] [LawfulBEq A] (a b : List A)
    (h : b.length < a.length) : a.isPrefixOf b = false := by
  rw [isPre_false_iff]
  intro t ht
  have h2 := congrArg List.length ht
  simp at h2
  omega

theorem key_ne_nil (fs : FS) (hwf : WfFS fs) (p : Path) (n : Node)
    (h : findNode fs p = some n) : p ≠ [] :=
  (hwf.2 (p, n) (findNode_some_mem fs p n h)).1

theorem fresh_not_pre (fs : FS) (hwf : WfFS fs) (e : Path)
    (hfresh : findNode fs e = none) (hene : e ≠ []) (k : Path) (n : Node)
    (hk : findNode fs k = some n) : e.isPrefixOf k = false :=
  keys_not_under fs hwf e hfresh hene k n (findNode_some_mem fs k n hk)

theorem parentOk_true_iff (fs : FS) (p : Path) :
    parentOk fs p = true ↔
      p ≠ [] ∧ (p.dropLast = [] ∨ findNode fs p.dropLast = some Node.dir) := by
  simp [parentOk, isDirP]

/-- `os.rename` of an existing entry onto a fresh path with an existing
parent: every key below the source is re-keyed below the destination. -/
theorem osRename_fresh (fs : FS) (ns e : Path) (n0 : Node)
    (hsrc : findNode fs ns = some n0)
    (hfresh : findNode fs e = none)
    (hene : e ≠ [])
    (hnpre : ns.isPrefixOf e = false)
    (hpar : e.dropLast = [] ∨ findNode fs e.dropLast = some Node.dir) :
    osRename fs ns e = Except.ok (fs.map (rekeyEntry ns e)) := by
  unfold osRename
  simp only [hsrc]
  have hne : ns ≠ e := fun hc => by
    rw [hc, hfresh] at hsrc; exact Option.noConfusion hsrc
  rw [if_neg hne, if_neg (by simp [hnpre])]
  simp only [hfresh]
  rw [if_pos ((parentOk_true_iff fs e).2 ⟨hene, hpar⟩)]

/-- Undoing the re-keying of `osRename_fresh` restores the filesystem
exactly. -/
theorem rekey_invol (fs : FS) (ns e : Path)
    (hfree : ∀ k v, (k, v) ∈ fs → e.isPrefixOf k = false) :
    (fs.map (rekeyEntry ns e)).map (rekeyEntry e ns) = fs := by
  rw [List.map_map]
  conv_rhs => rw [← List.map_id fs]
  apply List.map_congr_left
  intro ent hent
  obtain ⟨k, v⟩ := ent
  show rekeyEntry e ns (rekeyEntry ns e (k, v)) = (k, v)
  by_cases hns : ns.isPrefixOf k = true
  · have h1 : rekeyEntry ns e (k, v) = (e ++ k.drop ns.length, v) := by
      simp [rekeyEntry, hns]
    rw [h1]
    have h2 : e.isPrefixOf (e ++ k.drop ns.length) = true := isPre_append _ _
    simp only [rekeyEntry, h2, if_pos]
    rw [List.drop_left, pre_append_drop ns k hns]
  · have h1 : rekeyEntry ns e (k, v) = (k, v) := by simp [rekeyEntry, hns]
    rw [h1]
    have h2 : e.isPrefixOf k = false := hfree k v hent
    simp [rekeyEntry, h2]

/-- The reverse `os.rename` after `osRename_fresh` succeeds and restores
the original filesystem. -/
theorem osRename_back (fs : FS) (hwf : WfFS fs) (ns e : Path) (n0 : Node)
    (hsrc : findNode fs ns = some n0)
    (hfresh : findNode fs e = none)
    (hene : e ≠ [])
    (hnpre : ns.isPrefixOf e = false) :
    osRename (fs.map (rekeyEntry ns e)) e ns = Except.ok fs := by
  have hfree := keys_not_under fs hwf e hfresh hene
  have hnsne : ns ≠ [] := key_ne_nil fs hwf ns n0 hsrc
  have hepre : e.isPrefixOf ns = false := fresh_not_pre fs hwf e hfresh hene ns n0 hsrc
  unfold osRename
  have h1 : findNode (fs.map (rekeyEntry ns e)) e = some n0 := by
    have h2 := findNode_rekey_under ns e fs hfree []
    simpa [hsrc] using h2
  simp only [h1]
  have hne' : e ≠ ns := fun hc => by
    rw [← hc, hfresh] at hsrc; exact Option.noConfusion hsrc
  rw [if_neg hne', if_neg (by simp [hepre])]
  have h2 : findNode (fs.map (rekeyEntry ns e)) ns = none :=
    findNode_rekey_gone ns e fs hfree ns (isPre_refl ns) hepre
  simp only [h2]
  have hcl := (hwf.2 (ns, n0) (findNode_some_mem fs ns n0 hsrc)).2.2
  have hpok : parentOk (fs.map (rekeyEntry ns e)) ns = true := by
    rw [parentOk_true_iff]
    refine ⟨hnsne, ?_⟩
    rcases hcl with h3 | h3
    · exact Or.inl h3
    · right
      have hnsd : ns.isPrefixOf ns.dropLast = false := by
        apply isPre_len_false
        have := List.length_dropLast ns
        have h4 : 1 ≤ ns.length := by
          cases ns with
          | nil => exact absurd rfl hnsne
          | cons a b => simp
        omega
      have hed : e.isPrefixOf ns.dropLast = false := by
        rw [isPre_false_iff]
        intro t ht
        have h5 : e.isPrefixOf ns = true :=
          isPre_trans e ns.dropLast ns
            ((isPre_iff _ _).2 ⟨t, ht⟩) (isPre_dropLast ns)
        rw [hepre] at h5
        exact Bool.noConfusion h5
      rw [findNode_rekey_other ns e fs ns.dropLast hnsd hed]
      exact h3
  rw [if_pos hpok, rekey_invol fs ns e hfree]

/-- Re-keying the subtree at an existing source to a fresh destination
with normal components preserves well-formedness. -/
theorem rekey_wf (fs : FS) (hwf : WfFS fs) (ns e : Path) (n0 : Node)
    (hsrc : findNode fs ns = some n0)
    (hfresh : findNode fs e = none)
    (hene : e ≠ [])
    (hnpre : ns.isPrefixOf e = false)
    (heN : ∀ c ∈ e, normalName c)
    (hpar : e.dropLast = [] ∨ findNode fs e.dropLast = some Node.dir) :
    WfFS (fs.map (rekeyEntry ns e)) := by
  have hfree := keys_not_under fs hwf e hfresh hene
  have hnsne : ns ≠ [] := key_ne_nil fs hwf ns n0 hsrc
  constructor
  · -- keys stay pairwise distinct
    have hkeys : (fs.map (rekeyEntry ns e)).map (fun x => x.1)
        = (fs.map (fun x => x.1)).map
            (fun k => if ns.isPrefixOf k = true then e ++ k.drop ns.length else k) := by
      rw [List.map_map, List.map_map]
      apply List.map_congr_left
      intro ent _
      show (rekeyEntry ns e ent).1 = _
      by_cases hp : ns.isPrefixOf ent.1 = true
      · unfold rekeyEntry
        simp only [Function.comp_apply]
        rw [if_pos hp, if_pos hp]
      · unfold rekeyEntry
        simp only [Function.comp_apply]
        rw [if_neg hp, if_neg hp]
    rw [hkeys]
    apply List.Nodup.map_on ?_ hwf.1
    intro x hx y hy hxy
    have hxv : ∃ v, (x, v) ∈ fs := by
      obtain ⟨ent, hm, he2⟩ := List.mem_map.1 hx
      exact ⟨ent.2, by rw [← he2]; simpa using hm⟩
    have hyv : ∃ v, (y, v) ∈ fs := by
      obtain ⟨ent, hm, he2⟩ := List.mem_map.1 hy
      exact ⟨ent.2, by rw [← he2]; simpa using hm⟩
    by_cases hpx : ns.isPrefixOf x = true <;> by_cases hpy : ns.isPrefixOf y = true
    · rw [if_pos hpx, if_pos hpy] at hxy
      have h2 : x.drop ns.length = y.drop ns.length := List.append_cancel_left hxy
      rw [← pre_append_drop ns x hpx, ← pre_append_drop ns y hpy, h2]
    · rw [if_pos hpx, if_neg hpy] at hxy
      obtain ⟨v, hv⟩ := hyv
      have h2 := hfree y v hv
      rw [← hxy, isPre_append] at h2
      exact Bool.noConfusion h2
    · rw [if_neg hpx, if_pos hpy] at hxy
      obtain ⟨v, hv⟩ := hxv
      have h2 := hfree x v hv
      rw [hxy, isPre_append] at h2
      exact Bool.noConfusion h2
    · rw [if_neg hpx, if_neg hpy] at hxy
      exact hxy
  · -- per-entry facts
    intro ent' hent'
    obtain ⟨ent, hm, hre⟩ := List.mem_map.1 hent'
    obtain ⟨k, v⟩ := ent
    have horig := hwf.2 (k, v) hm
    by_cases hp : ns.isPrefixOf k = true
    · have hkey : ent' = (e ++ k.drop ns.length, v) := by
        rw [← hre]; unfold rekeyEntry; rw [if_pos hp]
      subst hkey
      refine ⟨by simp [hene], ?_, ?_⟩
      · intro c hc
        rcases List.mem_append.1 hc with h | h
        · exact heN c h
        · exact horig.2.1 c (List.mem_of_mem_drop h)
      · by_cases hd : k.drop ns.length = []
        · rw [hd, List.append_nil]
          rcases hpar with h3 | h3
          · exact Or.inl h3
          · right
            have hnsd : ns.isPrefixOf e.dropLast = false := by
              rw [isPre_false_iff]
              intro t ht
              have h4 : ns.isPrefixOf e = true :=
                isPre_trans ns e.dropLast e ((isPre_iff _ _).2 ⟨t, ht⟩) (isPre_dropLast e)
              rw [hnpre] at h4
              exact Bool.noConfusion h4
            have hed : e.isPrefixOf e.dropLast = false := by
              apply isPre_len_false
              have h5 := List.length_dropLast e
              have h6 : 1 ≤ e.length := by
                cases e with
                | nil => exact absurd rfl hene
                | cons a b => simp
              omega
            rw [findNode_rekey_other ns e fs _ hnsd hed]
            exact h3
        · have hk2 : ns ++ k.drop ns.length = k := pre_append_drop ns k hp
          rw [List.dropLast_append_of_ne_nil e hd]
          right
          rw [findNode_rekey_under ns e fs hfree (k.drop ns.length).dropLast]
          have hkd : k.dropLast = ns ++ (k.drop ns.length).dropLast := by
            rw [← hk2, List.dropLast_append_of_ne_nil ns hd, List.drop_left]
          rcases horig.2.2 with h3 | h3
          · rw [hkd] at h3
            exact absurd (List.append_eq_nil.1 h3).1 hnsne
          · rw [hkd] at h3
            exact h3
    · have hkey : ent' = (k, v) := by
        rw [← hre]; unfold rekeyEntry; rw [if_neg hp]
      subst hkey
      refine ⟨horig.1, horig.2.1, ?_⟩
      rcases horig.2.2 with h3 | h3
      · exact Or.inl h3
      · right
        have hnsd : ns.isPrefixOf k.dropLast = false := by
          rw [isPre_false_iff]
          intro t ht
          have h4 : ns.isPrefixOf k = true :=
            isPre_trans ns k.dropLast k ((isPre_iff _ _).2 ⟨t, ht⟩) (isPre_dropLast k)
          exact hp h4
        have hed : e.isPrefixOf k.dropLast = false :=
          fresh_not_pre fs hwf e hfresh hene k.dropLast Node.dir h3
        rw [findNode_rekey_other ns e fs _ hnsd hed]
        exact h3

/-! ### Per-operation step lemmas -/

theorem getLastD_mem {A : Type} (l : List A) (h : l ≠ []) (x : A) :
    l.getLastD x ∈ l := by
  induction l with
  | nil => exact absurd rfl h
  | cons a l ih =>
    cases l with
    | nil => simp [List.getLastD]
    | cons b l2 =>
      have h2 := ih (by simp)
      simp only [List.getLastD] at h2 ⊢
      exact List.mem_cons_of_mem _ h2

theorem relOk_parts {s : Str} (h : relOk s) :
    s.head? ≠ some '/' ∧ pathComps s = splitSlash s ∧ pathComps s ≠ [] ∧
      ∀ c ∈ pathComps s, normalName c := by
  have hfil : pathComps s = splitSlash s := by
    unfold pathComps
    rw [List.filter_eq_self]
    intro c hc
    simpa using (h c hc).1
  refine ⟨?_, hfil, ?_, ?_⟩
  · intro hh
    cases s with
    | nil => simp at hh
    | cons a rest =>
      have ha : a = '/' := by simpa using hh
      have hmem : ([] : Str) ∈ splitSlash (a :: rest) := by
        subst ha
        simp [splitSlash]
      exact (h [] hmem).1 rfl
  · rw [hfil]
    exact splitSlash_ne_nil s
  · intro c hc
    rw [hfil] at hc
    exact h c hc

theorem joinAbs_normal (D : Path) (hD : DOk D) (rel : Str) (hrel : relOk rel) :
    joinAbs D rel = D ++ pathComps rel ∧
    normalizePath (joinAbs D rel) = joinAbs D rel ∧
    (∀ c ∈ joinAbs D rel, normalName c) ∧ joinAbs D rel ≠ [] := by
  obtain ⟨hh1, hfil1, hne1, hN1⟩ := relOk_parts hrel
  have hj : joinAbs D rel = D ++ pathComps rel := by
    unfold joinAbs
    rw [if_neg hh1]
  have hN : ∀ c ∈ joinAbs D rel, normalName c := by
    intro c hc
    rw [hj] at hc
    rcases List.mem_append.1 hc with h | h
    · exact hD.2 c h
    · exact hN1 c h
  refine ⟨hj, normalize_normal _ hN, hN, ?_⟩
  rw [hj]
  simp [hD.1]

theorem isDirP_of_none (fs : FS) (p : Path) (h : findNode fs p = none) :
    isDirP fs p = false := by
  simp [isDirP, h]

theorem childCount_append_fresh (fs : FS) (hwf : WfFS fs) (t : Path)
    (hfresh : findNode fs t = none) (hne : t ≠ []) :
    childCount (fs ++ [(t, Node.dir)]) t = 0 := by
  unfold childCount
  rw [List.countP_append]
  have h1 : fs.countP (fun e => decide (e.1.length = t.length + 1 ∧ t.isPrefixOf e.1)) = 0 := by
    rw [List.countP_eq_zero]
    intro e he
    simp only [decide_eq_true_eq, not_and]
    intro _
    have h2 := keys_not_under fs hwf t hfresh hne e.1 e.2 (by simpa using he)
    simp [h2]
  have h2 : List.countP (fun e => decide (e.1.length = t.length + 1 ∧ t.isPrefixOf e.1))
      [(t, Node.dir)] = 0 := by
    rw [List.countP_eq_zero]
    intro e he
    simp only [List.mem_singleton] at he
    subst he
    simp only [decide_eq_true_eq, not_and]
    intro hlen
    omega
  omega

theorem findNode_append_fresh (fs : FS) (t : Path) (n : Node)
    (hfresh : findNode fs t = none) :
    findNode (fs ++ [(t, n)]) t = some n := by
  rw [findNode_append, hfresh]
  simp [findNode]

theorem rmdirFS_append_fresh (fs : FS) (t : Path) (n : Node)
    (hfresh : findNode fs t = none) :
    rmdirFS (fs ++ [(t, n)]) t = fs := by
  unfold rmdirFS
  rw [List.filter_append]
  have h1 : fs.filter (fun e => decide ¬ e.1 = t) = fs := by
    rw [List.filter_eq_self]
    intro e he
    simp only [decide_eq_true_eq]
    exact (findNode_eq_none fs t).1 hfresh e he
  have h2 : List.filter (fun e => decide ¬ e.1 = t) [(t, n)] = [] := by
    simp
  rw [h1, h2, List.append_nil]

theorem append_dir_wf (fs : FS) (hwf : WfFS fs) (t : Path)
    (hfresh : findNode fs t = none) (hne : t ≠ [])
    (hN : ∀ c ∈ t, normalName c)
    (hpar : t.dropLast = [] ∨ findNode fs t.dropLast = some Node.dir) :
    WfFS (fs ++ [(t, Node.dir)]) := by
  constructor
  · rw [List.map_append]
    rw [List.nodup_append]
    refine ⟨hwf.1, by simp, ?_⟩
    intro x hx hx2
    simp only [List.map_cons, List.map_nil, List.mem_singleton] at hx2
    subst hx2
    obtain ⟨ent, hm, he2⟩ := List.mem_map.1 hx
    exact (findNode_eq_none fs x).1 hfresh ent hm he2
  · intro ent hent
    rcases List.mem_append.1 hent with h | h
    · have horig := hwf.2 ent h
      refine ⟨horig.1, horig.2.1, ?_⟩
      rcases horig.2.2 with h3 | h3
      · exact Or.inl h3
      · right
        rw [findNode_append, h3]
    · simp only [List.mem_singleton] at h
      subst h
      refine ⟨hne, hN, ?_⟩
      rcases hpar with h3 | h3
      · exact Or.inl h3
      · right
        rw [findNode_append, h3]

/-- A valid `MKDIR` creates exactly the target directory, recording its
removal; its inverse record, undone against the resulting filesystem,
restores the original exactly. -/
theorem mkdirOp_valid (D : Path) (hD : DOk D) (fs : FS) (hwf : WfFS fs) (rel : Str)
    (hv : validOp D fs (Op.mkdir rel)) :
    mkdirOp D fs rel = Except.ok (fs ++ [(joinAbs D rel, Node.dir)], some (RCmd.rmdir rel)) ∧
    WfFS (fs ++ [(joinAbs D rel, Node.dir)]) ∧
    undoCmd D (fs ++ [(joinAbs D rel, Node.dir)]) (RCmd.rmdir rel) = Except.ok fs := by
  obtain ⟨hrel, hguard, hex, hpardir⟩ := hv
  obtain ⟨hj, hnorm, hN, hne⟩ := joinAbs_normal D hD rel hrel
  have hfresh : findNode fs (joinAbs D rel) = none := (existsP_false_iff fs _).1 hex
  have hpar : findNode fs (joinAbs D rel).dropLast = some Node.dir :=
    (isDirP_iff fs _).1 hpardir
  have hmk : makedirs fs (joinAbs D rel) = Except.ok (fs ++ [(joinAbs D rel, Node.dir)]) := by
    apply makedirs_fresh fs _ hne _ hfresh
    intro q hq ⟨t, htne, ht⟩
    exact parent_dir_anc fs hwf (joinAbs D rel) hpar q hq ⟨t, htne, ht⟩
  have happ : mkdirOp D fs rel
      = Except.ok (fs ++ [(joinAbs D rel, Node.dir)], some (RCmd.rmdir rel)) := by
    unfold mkdirOp
    rw [if_neg (by simp [hguard]), hnorm]
    rw [if_pos (by simp [hex]), hmk]
  have hwf2 : WfFS (fs ++ [(joinAbs D rel, Node.dir)]) :=
    append_dir_wf fs hwf _ hfresh hne hN (Or.inr hpar)
  refine ⟨happ, hwf2, ?_⟩
  simp only [undoCmd]
  rw [hnorm]
  rw [if_pos (by
    rw [isDirP_iff]
    exact findNode_append_fresh fs _ Node.dir hfresh)]
  rw [if_pos (childCount_append_fresh fs hwf _ hfresh hne)]
  rw [rmdirFS_append_fresh fs _ Node.dir hfresh]

/-- A valid `RENAME` re-keys the subtree at the old path to the new path;
its inverse record, undone against the result, restores the original
filesystem exactly. -/
theorem renameOp_valid (D : Path) (hD : DOk D) (fs : FS) (hwf : WfFS fs) (o n : Str)
    (hv : validOp D fs (Op.rename o n)) :
    renameOp D fs o n
      = Except.ok (fs.map (rekeyEntry (joinAbs D o) (joinAbs D n)), RCmd.ren n o) ∧
    WfFS (fs.map (rekeyEntry (joinAbs D o) (joinAbs D n))) ∧
    undoCmd D (fs.map (rekeyEntry (joinAbs D o) (joinAbs D n))) (RCmd.ren n o)
      = Except.ok fs := by
  obtain ⟨hrelo, hreln, hgo, hgn, hex, hnex, hpardir, hnpre⟩ := hv
  obtain ⟨hjo, hno, hNo, hneo⟩ := joinAbs_normal D hD o hrelo
  obtain ⟨hjn, hnn, hNn, hnen⟩ := joinAbs_normal D hD n hreln
  obtain ⟨n0, hn0⟩ := (existsP_iff fs _).1 hex
  have hfreshn : findNode fs (joinAbs D n) = none := (existsP_false_iff fs _).1 hnex
  have hparn : findNode fs (joinAbs D n).dropLast = some Node.dir :=
    (isDirP_iff fs _).1 hpardir
  have hfree := keys_not_under fs hwf (joinAbs D n) hfreshn hnen
  have hren := osRename_fresh fs (joinAbs D o) (joinAbs D n) n0 hn0 hfreshn hnen hnpre
    (Or.inr hparn)
  have happ : renameOp D fs o n
      = Except.ok (fs.map (rekeyEntry (joinAbs D o) (joinAbs D n)), RCmd.ren n o) := by
    unfold renameOp
    rw [if_neg (by simp [hgo, hgn]), hno, hnn]
    rw [if_neg (by simp [hex]), hren]
  have hwf2 : WfFS (fs.map (rekeyEntry (joinAbs D o) (joinAbs D n))) :=
    rekey_wf fs hwf _ _ n0 hn0 hfreshn hnen hnpre hNn (Or.inr hparn)
  refine ⟨happ, hwf2, ?_⟩
  simp only [undoCmd]
  rw [hnn, hno]
  have hfind : findNode (fs.map (rekeyEntry (joinAbs D o) (joinAbs D n))) (joinAbs D n)
      = some n0 := by
    have h2 := findNode_rekey_under (joinAbs D o) (joinAbs D n) fs hfree []
    simp only [List.append_nil] at h2
    rw [h2, hn0]
  rw [if_pos (by rw [existsP_iff]; exact ⟨n0, hfind⟩)]
  exact osRename_back fs hwf (joinAbs D o) (joinAbs D n) n0 hn0 hfreshn hnen hnpre

/-- The effective destination of a `MOVE`: inside an existing directory
the entry keeps its base name, otherwise it lands on the literal
destination. -/
def moveEff (D : Path) (fs : FS) (s d : Str) : Path :=
  if isDirP fs (joinAbs D d) then joinAbs D d ++ [basenameOf (joinAbs D s)]
  else joinAbs D d

/-- A valid `MOVE` re-keys the subtree at the source to the effective
destination and records the relative effective destination with the
relative source; the record, undone against the result, restores the
original filesystem exactly. -/
theorem moveOp_valid (D : Path) (hD : DOk D) (fs : FS) (hwf : WfFS fs) (s d : Str)
    (hv : validOp D fs (Op.move s d)) :
    moveOp D fs s d = Except.ok (fs.map (rekeyEntry (joinAbs D s) (moveEff D fs s d)),
        RCmd.move (relpathStr (moveEff D fs s d) D) (relpathStr (joinAbs D s) D)) ∧
    WfFS (fs.map (rekeyEntry (joinAbs D s) (moveEff D fs s d))) ∧
    undoCmd D (fs.map (rekeyEntry (joinAbs D s) (moveEff D fs s d)))
        (RCmd.move (relpathStr (moveEff D fs s d) D) (relpathStr (joinAbs D s) D))
      = Except.ok fs := by
  obtain ⟨hrels, hreld, hgs, hgd, hexs, hnexe, hpare, hnpre⟩ := hv
  obtain ⟨hjs, hns, hNs, hnes⟩ := joinAbs_normal D hD s hrels
  obtain ⟨hjd, hnd, hNd, hned⟩ := joinAbs_normal D hD d hreld
  obtain ⟨n0, hn0⟩ := (existsP_iff fs _).1 hexs
  have heq : (if isDirP fs (joinAbs D d) = true
      then joinAbs D d ++ [basenameOf (joinAbs D s)] else joinAbs D d) = moveEff D fs s d := by
    unfold moveEff
    rfl
  rw [heq] at hnexe hpare hnpre
  have hfreshe : findNode fs (moveEff D fs s d) = none := (existsP_false_iff fs _).1 hnexe
  have hpare' : findNode fs (moveEff D fs s d).dropLast = some Node.dir :=
    (isDirP_iff fs _).1 hpare
  -- the effective destination decomposes as D ++ te with te normal, nonempty
  have hbase : basenameOf (joinAbs D s) ∈ joinAbs D s := getLastD_mem _ hnes []
  obtain ⟨te, hte_eq, hte_ne, hteN⟩ :
      ∃ te, moveEff D fs s d = D ++ te ∧ te ≠ [] ∧ ∀ c ∈ te, normalName c := by
    unfold moveEff
    by_cases hdir : isDirP fs (joinAbs D d) = true
    · rw [if_pos hdir]
      refine ⟨pathComps d ++ [basenameOf (joinAbs D s)], by rw [hjd, List.append_assoc],
        by simp, ?_⟩
      intro c hc
      rcases List.mem_append.1 hc with h | h
      · exact (relOk_parts hreld).2.2.2 c h
      · simp only [List.mem_singleton] at h
        subst h
        exact hNs _ hbase
    · rw [if_neg hdir]
      exact ⟨pathComps d, hjd, (relOk_parts hreld).2.2.1, (relOk_parts hreld).2.2.2⟩
  have heN : ∀ c ∈ moveEff D fs s d, normalName c := by
    rw [hte_eq]
    intro c hc
    rcases List.mem_append.1 hc with h | h
    · exact hD.2 c h
    · exact hteN c h
  have hene : moveEff D fs s d ≠ [] := by
    rw [hte_eq]
    simp [hD.1]
  have hen : normalizePath (moveEff D fs s d) = moveEff D fs s d := normalize_normal _ heN
  have hfree := keys_not_under fs hwf (moveEff D fs s d) hfreshe hene
  have hren := osRename_fresh fs (joinAbs D s) (moveEff D fs s d) n0 hn0 hfreshe hene
    hnpre (Or.inr hpare')
  have hsm : shutilMove fs (joinAbs D s) (moveEff D fs s d)
      = Except.ok (fs.map (rekeyEntry (joinAbs D s) (moveEff D fs s d))) := by
    unfold shutilMove
    rw [hns, hen]
    rw [if_neg (by simp [isDirP_of_none fs _ hfreshe])]
    exact hren
  have happ : moveOp D fs s d
      = Except.ok (fs.map (rekeyEntry (joinAbs D s) (moveEff D fs s d)),
          RCmd.move (relpathStr (moveEff D fs s d) D) (relpathStr (joinAbs D s) D)) := by
    unfold moveOp
    rw [if_neg (by simp [hgs, hgd]), hns]
    rw [if_neg (by simp [hexs]), hnd]
    simp only [heq, hsm, hen]
  have hwf2 : WfFS (fs.map (rekeyEntry (joinAbs D s) (moveEff D fs s d))) :=
    rekey_wf fs hwf _ _ n0 hn0 hfreshe hene hnpre heN (Or.inr hpare')
  refine ⟨happ, hwf2, ?_⟩
  simp only [undoCmd]
  have hA : joinAbs D (relpathStr (moveEff D fs s d) D) = moveEff D fs s d := by
    rw [hte_eq]
    exact joinAbs_relpathStr D te hte_ne hD.2 hteN
  have hB : joinAbs D (relpathStr (joinAbs D s) D) = joinAbs D s := by
    rw [hjs]
    exact joinAbs_relpathStr D (pathComps s) (relOk_parts hrels).2.2.1 hD.2 (relOk_parts hrels).2.2.2
  rw [hA, hB, hen]
  have hfind : findNode (fs.map (rekeyEntry (joinAbs D s) (moveEff D fs s d)))
      (moveEff D fs s d) = some n0 := by
    have h2 := findNode_rekey_under (joinAbs D s) (moveEff D fs s d) fs hfree []
    simp only [List.append_nil] at h2
    rw [h2, hn0]
  rw [if_pos (by
    constructor
    · rw [existsP_iff]; exact ⟨n0, hfind⟩
    · exact hgs)]
  have hepre : (moveEff D fs s d).isPrefixOf (joinAbs D s) = false :=
    fresh_not_pre fs hwf _ hfreshe hene _ n0 hn0
  have hgone : findNode (fs.map (rekeyEntry (joinAbs D s) (moveEff D fs s d)))
      (joinAbs D s) = none :=
    findNode_rekey_gone _ _ fs hfree _ (isPre_refl _) hepre
  unfold shutilMove
  rw [hen, hns]
  rw [if_neg (by simp [isDirP_of_none _ _ hgone])]
  exact osRename_back fs hwf (joinAbs D s) (moveEff D fs s d) n0 hn0 hfreshe hene hnpre

/-- Any valid operation succeeds, preserves well-formedness, and its
recorded inverses (processed in reverse) restore the previous state. -/
theorem applyOp_valid (D : Path) (hD : DOk D) (fs : FS) (hwf : WfFS fs) (op : Op)
    (hv : validOp D fs op) :
    ∃ fs' recs, applyOp D fs op = Except.ok (fs', recs) ∧ WfFS fs' ∧
      rollbackRun D fs' recs.reverse = (fs, none) := by
  cases op with
  | mkdir rel =>
    obtain ⟨happ, hwf2, hundo⟩ := mkdirOp_valid D hD fs hwf rel hv
    refine ⟨fs ++ [(joinAbs D rel, Node.dir)], [RCmd.rmdir rel], ?_, hwf2, ?_⟩
    · simp only [applyOp]
      rw [happ]
      rfl
    · simp only [List.reverse_cons, List.reverse_nil, List.nil_append, rollbackRun, hundo]
  | move s d =>
    obtain ⟨happ, hwf2, hundo⟩ := moveOp_valid D hD fs hwf s d hv
    refine ⟨fs.map (rekeyEntry (joinAbs D s) (moveEff D fs s d)),
      [RCmd.move (relpathStr (moveEff D fs s d) D) (relpathStr (joinAbs D s) D)],
      ?_, hwf2, ?_⟩
    · simp only [applyOp]
      rw [happ]
    · simp only [List.reverse_cons, List.reverse_nil, List.nil_append, rollbackRun, hundo]
  | rename o n =>
    obtain ⟨happ, hwf2, hundo⟩ := renameOp_valid D hD fs hwf o n hv
    refine ⟨fs.map (rekeyEntry (joinAbs D o) (joinAbs D n)), [RCmd.ren n o],
      ?_, hwf2, ?_⟩
    · simp only [applyOp]
      rw [happ]
    · simp only [List.reverse_cons, List.reverse_nil, List.nil_append, rollbackRun, hundo]

theorem rollbackRun_append (D : Path) :
    ∀ (xs ys : List RCmd) (fs : FS),
      rollbackRun D fs (xs ++ ys) =
        match rollbackRun D fs xs with
        | (fs2, none) => rollbackRun D fs2 ys
        | (fs2, some e) => (fs2, some e) := by
  intro xs
  induction xs with
  | nil => intro ys fs; rfl
  | cons r xs ih =>
    intro ys fs
    simp only [List.cons_append, rollbackRun]
    cases hu : undoCmd D fs r with
    | ok fs' => exact ih ys fs'
    | error e => rfl

/-- Applying a strongly valid plan and then rolling back the accumulated
journal (in reverse order) restores the filesystem exactly. -/
theorem runPlan_rollback (D : Path) (hD : DOk D) :
    ∀ (plan : List Op) (fs : FS), WfFS fs → validPlan D fs plan →
      rollbackCmds D (runPlan D fs plan).1 (runPlan D fs plan).2 = (fs, none) := by
  intro plan
  induction plan with
  | nil => intro fs _ _; rfl
  | cons op rest ih =>
    intro fs hwf hv
    obtain ⟨fs1, recs, happ, hwf1, hundo⟩ := applyOp_valid D hD fs hwf op hv.1
    have hv2 : validPlan D fs1 rest := by
      have h2 := hv.2
      rw [happ] at h2
      exact h2
    have hrun : runPlan D fs (op :: rest)
        = ((runPlan D fs1 rest).1, recs ++ (runPlan D fs1 rest).2) := by
      simp only [runPlan]
      rw [happ]
    rw [hrun]
    have hIH := ih fs1 hwf1 hv2
    simp only [rollbackCmds] at hIH ⊢
    rw [List.reverse_append, rollbackRun_append D]
    simp only [hIH]
    exact hundo

/-! ### `removeTree` lemmas and guard consequences -/

theorem findNode_removeTree (p : Path) :
    ∀ (fs : FS) (q : Path),
      findNode (removeTree fs p) q
        = if p.isPrefixOf q = true then none else findNode fs q := by
  intro fs
  induction fs with
  | nil =>
    intro q
    split <;> simp [removeTree, findNode]
  | cons ent fs ih =>
    intro q
    obtain ⟨k, v⟩ := ent
    by_cases hk : p.isPrefixOf k = true
    · have h1 : removeTree ((k, v) :: fs) p = removeTree fs p := by
        unfold removeTree
        rw [List.filter_cons]
        simp [hk]
      rw [h1, ih q]
      by_cases hq : p.isPrefixOf q = true
      · rw [if_pos hq, if_pos hq]
      · rw [if_neg hq, if_neg hq]
        have hne : k ≠ q := by
          intro hc
          rw [hc] at hk
          exact hq hk
        simp [findNode, hne]
    · have h1 : removeTree ((k, v) :: fs) p = (k, v) :: removeTree fs p := by
        unfold removeTree
        rw [List.filter_cons]
        simp [hk]
      rw [h1]
      by_cases hq : p.isPrefixOf q = true
      · have hne : k ≠ q := by
          intro hc
          rw [hc] at hk
          exact hk hq
        simp only [findNode, if_neg hne, ih q, if_pos hq]
      · simp only [findNode, ih q, if_neg hq]

theorem removeTree_free (fs : FS) (p : Path) :
    ∀ k v, (k, v) ∈ removeTree fs p → p.isPrefixOf k = false := by
  intro k v hm
  have h1 := List.of_mem_filter hm
  simp only [decide_eq_true_eq] at h1
  rwa [Bool.not_eq_true] at h1

theorem removeTree_mem (fs : FS) (p : Path) (ent : Path × Node)
    (h : ent ∈ removeTree fs p) : ent ∈ fs :=
  List.mem_of_mem_filter h

theorem wf_removeTree (fs : FS) (hwf : WfFS fs) (p : Path) :
    WfFS (removeTree fs p) := by
  constructor
  · have hsub : List.Sublist (List.map (fun e => e.1) (removeTree fs p))
        (List.map (fun e => e.1) fs) := by
      apply List.Sublist.map
      exact List.filter_sublist fs
    exact hwf.1.sublist hsub
  · intro ent hent
    obtain ⟨k, v⟩ := ent
    have hm := removeTree_mem fs p (k, v) hent
    have hfree := removeTree_free fs p k v hent
    have horig := hwf.2 (k, v) hm
    refine ⟨horig.1, horig.2.1, ?_⟩
    rcases horig.2.2 with h3 | h3
    · exact Or.inl h3
    · right
      rw [findNode_removeTree p fs]
      have hppar : p.isPrefixOf k.dropLast = false := by
        rw [isPre_false_iff]
        intro t ht
        have h4 : p.isPrefixOf k = true :=
          isPre_trans p k.dropLast k ((isPre_iff _ _).2 ⟨t, ht⟩) (isPre_dropLast k)
        rw [hfree] at h4
        exact Bool.noConfusion h4
      rw [if_neg (by simp [hppar])]
      exact h3

theorem absStr_ne_nil (D : Path) : absStr D ≠ [] := by
  unfold absStr
  by_cases h : D = []
  · simp [h]
  · rw [if_neg h]
    cases D with
    | nil => exact absurd rfl h
    | cons c rest => simp [pathChars_cons]

theorem within_norm_ne_nil (D p : Path) (h : isWithinDesktop D p = true) :
    normalizePath p ≠ [] := by
  intro hc
  unfold isWithinDesktop at h
  rw [hc] at h
  obtain ⟨t, ht⟩ := (isPre_iff _ _).1 h
  cases habs : absStr D with
  | nil => exact absStr_ne_nil D habs
  | cons a rest =>
    rw [habs] at ht
    rw [show absStr ([] : Path) = ['/'] from by simp [absStr]] at ht
    simp only [List.cons_append, List.cons.injEq] at ht
    have h6 := ht.2
    simp at h6

/-! ### Support for the MOVE, MKDIR-idempotence and no-abort claims -/

theorem moveEff_decomp (D : Path) (hD : DOk D) (fs : FS) (s d : Str)
    (hs : relOk s) (hd : relOk d) :
    ∃ te, moveEff D fs s d = D ++ te ∧ te ≠ [] ∧ ∀ c ∈ te, normalName c := by
  obtain ⟨hjs, _, hNs, hnes⟩ := joinAbs_normal D hD s hs
  obtain ⟨hjd, _, _, _⟩ := joinAbs_normal D hD d hd
  obtain ⟨hdh, hdfil, hdne, hdN⟩ := relOk_parts hd
  have hbase : basenameOf (joinAbs D s) ∈ joinAbs D s := getLastD_mem _ hnes []
  unfold moveEff
  by_cases hdir : isDirP fs (joinAbs D d) = true
  · rw [if_pos hdir]
    refine ⟨pathComps d ++ [basenameOf (joinAbs D s)], by rw [hjd, List.append_assoc],
      by simp, ?_⟩
    intro c hc
    rcases List.mem_append.1 hc with h | h
    · exact hdN c h
    · simp only [List.mem_singleton] at h
      subst h
      exact hNs _ hbase
  · rw [if_neg hdir]
    exact ⟨pathComps d, hjd, hdne, hdN⟩

/-- A line whose stripped form is blank, a comment, or tokenizes without a
`ValueError`. -/
def lineTokOk (l : Str) : Prop :=
  trimStr l = [] ∨ (trimStr l).head? = some '#' ∨ ∃ ts, shlexSplit (trimStr l) = Except.ok ts

instance (l : Str) : Decidable (lineTokOk l) := by
  unfold lineTokOk
  have hdE : Decidable (∃ ts, shlexSplit (trimStr l) = Except.ok ts) := by
    cases h : shlexSplit (trimStr l) with
    | ok ts => exact isTrue ⟨ts, rfl⟩
    | error e => exact isFalse (fun hex => by
        obtain ⟨ts, ht⟩ := hex
        exact Except.noConfusion ht)
  exact inferInstance

/-- When every line tokenizes (or is skipped), `execute_plan` processes
the whole plan and never aborts, whatever the per-line outcomes are. -/
theorem executePlan_no_abort (D : Path) :
    ∀ (lines : List Str) (fs : FS) (J : List RCmd),
      (∀ l ∈ lines, lineTokOk l) →
      (executePlan D fs J lines).2.2 = none := by
  intro lines
  induction lines with
  | nil => intro fs J _; rfl
  | cons l rest ih =>
    intro fs J hl
    have hl1 := hl l (List.mem_cons_self _ _)
    have hrest : ∀ l2 ∈ rest, lineTokOk l2 := fun l2 h2 => hl l2 (List.mem_cons_of_mem _ h2)
    simp only [executePlan]
    by_cases h1 : trimStr l = [] ∨ (trimStr l).head? = some '#'
    · rw [if_pos h1]
      exact ih fs J hrest
    · rw [if_neg h1]
      have hts : ∃ ts, shlexSplit (trimStr l) = Except.ok ts := by
        rcases hl1 with h2 | h2 | h2
        · exact absurd (Or.inl h2) h1
        · exact absurd (Or.inr h2) h1
        · exact h2
      obtain ⟨ts, hts⟩ := hts
      by_cases h2 : ts = []
      · simp only [hts, if_pos h2]
        exact ih fs J hrest
      · cases hdp : dispatchParts D fs ts with
        | ok p =>
          obtain ⟨fs2, recs⟩ := p
          simp only [hts, if_neg h2, hdp]
          exact ih fs2 (J ++ recs) hrest
        | error e =>
          simp only [hts, if_neg h2, hdp]
          exact ih fs J hrest

/-- The second application of the same `MKDIR` is a no-op appending no
record: the target now exists and the call takes the skip branch. -/
theorem mkdirOp_twice (D : Path) (fs fs1 : FS) (rel : Str)
    (h0 : mkdirOp D fs rel = Except.ok (fs1, some (RCmd.rmdir rel))) :
    mkdirOp D fs1 rel = Except.ok (fs1, none) ∧
    runPlan D fs [Op.mkdir rel, Op.mkdir rel] = (fs1, [RCmd.rmdir rel]) := by
  have h1 := h0
  unfold mkdirOp at h1
  by_cases hg : isWithinDesktop D (joinAbs D rel) = true
  · rw [if_neg (by simp [hg])] at h1
    by_cases hex : existsP fs (normalizePath (joinAbs D rel)) = false
    · rw [if_pos (by simp [hex])] at h1
      cases hmk : makedirs fs (normalizePath (joinAbs D rel)) with
      | error e => rw [hmk] at h1; exact Except.noConfusion h1
      | ok fs2 =>
        rw [hmk] at h1
        have h2 : fs2 = fs1 := by
          have h3 := Except.ok.inj h1
          exact (Prod.mk.injEq _ _ _ _ ▸ h3).1
        subst h2
        have hnne : normalizePath (joinAbs D rel) ≠ [] :=
          within_norm_ne_nil D (joinAbs D rel) hg
        obtain ⟨n, hn⟩ := makedirs_find fs fs2 (normalizePath (joinAbs D rel)) hnne hmk
        have hsecond : mkdirOp D fs2 rel = Except.ok (fs2, none) := by
          unfold mkdirOp
          rw [if_neg (by simp [hg])]
          rw [if_neg (by simp [existsP, hn])]
        refine ⟨hsecond, ?_⟩
        simp [runPlan, applyOp, h0, hsecond]
    · rw [if_neg (by simpa using hex)] at h1
      have h3 := Except.ok.inj h1
      have h4 := (Prod.mk.injEq _ _ _ _ ▸ h3).2
      exact Option.noConfusion h4
  · rw [if_pos (by simp [hg])] at h1
    exact Except.noConfusion h1

/-! ### Claim theorems -/

/-- C4 (amended): a MOVE fails when its source does not exist.  When the
destination is an existing directory the effective destination is
`destination/basename(source)`, otherwise it is the destination itself;
and whenever the operation succeeds *and the effective destination is not
itself an existing directory*, the moved entry ends up exactly at the
effective destination, and the appended inverse record stores the
relative effective (resolved) destination together with the relative
original source (both of which resolve back to those absolute paths).
Both arguments must be clean relative-path tokens (`relOk`): on a
trailing-slash source token `os.path.basename` degenerates to the empty
string and the program records the bare destination instead of
`destination/basename(source)`.  (Without the italicized proviso the
original claim fails: when `destination/basename(source)` is an existing
directory `shutil.move` places the entry one level deeper while the
record still names `destination/basename(source)`.) -/
theorem c4_move_resolution_amended (D : Path) (fs : FS) (s d : Str)
    (hD : DOk D) (hwf : WfFS fs) (hs : relOk s) (hd : relOk d)
    (hnd : isDirP fs (moveEff D fs s d) = false) :
    (existsP fs (joinAbs D s) = false →
      ∃ msg, moveOp D fs s d = Except.error msg) ∧
    (isDirP fs (joinAbs D d) = true →
      moveEff D fs s d = joinAbs D d ++ [basenameOf (joinAbs D s)]) ∧
    (isDirP fs (joinAbs D d) = false → moveEff D fs s d = joinAbs D d) ∧
    (∀ fs' r, moveOp D fs s d = Except.ok (fs', r) →
      r = RCmd.move (relpathStr (moveEff D fs s d) D) (relpathStr (joinAbs D s) D) ∧
      findNode fs' (moveEff D fs s d) = findNode fs (joinAbs D s) ∧
      joinAbs D (relpathStr (moveEff D fs s d) D) = moveEff D fs s d ∧
      joinAbs D (relpathStr (joinAbs D s) D) = joinAbs D s) := by
  obtain ⟨hjs, hnss, hNs, hnes⟩ := joinAbs_normal D hD s hs
  obtain ⟨hjd, hndn, hNd, hned⟩ := joinAbs_normal D hD d hd
  obtain ⟨te, hte_eq, hte_ne, hteN⟩ := moveEff_decomp D hD fs s d hs hd
  have heN : ∀ c ∈ moveEff D fs s d, normalName c := by
    rw [hte_eq]
    intro c hc
    rcases List.mem_append.1 hc with h | h
    · exact hD.2 c h
    · exact hteN c h
  have hene : moveEff D fs s d ≠ [] := by
    rw [hte_eq]
    simp [hD.1]
  have hen : normalizePath (moveEff D fs s d) = moveEff D fs s d := normalize_normal _ heN
  have hA : joinAbs D (relpathStr (moveEff D fs s d) D) = moveEff D fs s d := by
    rw [hte_eq]
    exact joinAbs_relpathStr D te hte_ne hD.2 hteN
  have hB : joinAbs D (relpathStr (joinAbs D s) D) = joinAbs D s := by
    rw [hjs]
    exact joinAbs_relpathStr D (pathComps s) (relOk_parts hs).2.2.1 hD.2 (relOk_parts hs).2.2.2
  refine ⟨?_, ?_, ?_, ?_⟩
  · intro hmiss
    unfold moveOp
    by_cases hg : isWithinDesktop D (joinAbs D s) = true ∧ isWithinDesktop D (joinAbs D d) = true
    · rw [if_neg (not_not_intro hg), hnss, if_pos (by simp [hmiss])]
      exact ⟨_, rfl⟩
    · rw [if_pos hg]
      exact ⟨_, rfl⟩
  · intro hdir
    unfold moveEff
    rw [if_pos hdir]
  · intro hdir
    unfold moveEff
    rw [if_neg (by simp [hdir])]
  · intro fs' r hok
    unfold moveOp at hok
    by_cases hg : isWithinDesktop D (joinAbs D s) = true ∧ isWithinDesktop D (joinAbs D d) = true
    case neg =>
      rw [if_pos hg] at hok
      exact Except.noConfusion hok
    rw [if_neg (not_not_intro hg), hnss] at hok
    by_cases hex : existsP fs (joinAbs D s) = true
    case neg =>
      rw [if_pos (by simpa using hex)] at hok
      exact Except.noConfusion hok
    rw [if_neg (by simp [hex]), hndn] at hok
    have heff : (if isDirP fs (joinAbs D d) = true
        then joinAbs D d ++ [basenameOf (joinAbs D s)] else joinAbs D d)
        = moveEff D fs s d := rfl
    rw [heff] at hok
    unfold shutilMove at hok
    simp only [hnss, hen] at hok
    rw [if_neg (by simp [hnd])] at hok
    obtain ⟨n0, hn0⟩ := (existsP_iff fs _).1 hex
    unfold osRename at hok
    simp only [hn0] at hok
    by_cases hse : joinAbs D s = moveEff D fs s d
    · rw [if_pos hse] at hok
      have h10 := Except.ok.inj hok
      have h11 : fs = fs' := congrArg Prod.fst h10
      have h12 := congrArg Prod.snd h10
      refine ⟨h12.symm, ?_, hA, hB⟩
      rw [← h11, ← hse]
    · rw [if_neg hse] at hok
      by_cases hpre : (joinAbs D s).isPrefixOf (moveEff D fs s d) = true
      · rw [if_pos hpre] at hok
        exact Except.noConfusion hok
      · rw [if_neg (by simp [hpre])] at hok
        cases hfe : findNode fs (moveEff D fs s d) with
        | some nn =>
          cases nn with
          | dir =>
            have h13 : isDirP fs (moveEff D fs s d) = true := (isDirP_iff _ _).2 hfe
            rw [hnd] at h13
            exact Bool.noConfusion h13
          | file c2 =>
            simp only [hfe] at hok
            cases n0 with
            | dir => exact Except.noConfusion hok
            | file c1 =>
              have h10 := Except.ok.inj hok
              have h11 : (removeTree fs (moveEff D fs s d)).map
                  (rekeyEntry (joinAbs D s) (moveEff D fs s d)) = fs' :=
                congrArg Prod.fst h10
              have h12 := congrArg Prod.snd h10
              refine ⟨h12.symm, ?_, hA, hB⟩
              have hfree := removeTree_free fs (moveEff D fs s d)
              have h13 := findNode_rekey_under (joinAbs D s) (moveEff D fs s d)
                (removeTree fs (moveEff D fs s d)) hfree []
              simp only [List.append_nil] at h13
              rw [← h11, h13, findNode_removeTree]
              have hepre : (moveEff D fs s d).isPrefixOf (joinAbs D s) = false := by
                rw [isPre_false_iff]
                intro t ht
                cases t with
                | nil =>
                  simp only [List.append_nil] at ht
                  exact hse ht.symm
                | cons a b =>
                  have h14 := ancestors_dir fs hwf (joinAbs D s) (Node.file c1)
                    (findNode_some_mem fs _ _ hn0) (moveEff D fs s d) hene (a :: b)
                    (by simp) ht
                  rw [hfe] at h14
                  have h15 := Option.some.inj h14
                  exact Node.noConfusion h15
              rw [if_neg (by simp [hepre])]
        | none =>
          simp only [hfe] at hok
          by_cases hpok : parentOk fs (moveEff D fs s d) = true
          · rw [if_pos hpok] at hok
            have h10 := Except.ok.inj hok
            have h11 : fs.map (rekeyEntry (joinAbs D s) (moveEff D fs s d)) = fs' :=
              congrArg Prod.fst h10
            have h12 := congrArg Prod.snd h10
            refine ⟨h12.symm, ?_, hA, hB⟩
            have hfree := keys_not_under fs hwf (moveEff D fs s d) hfe hene
            have h13 := findNode_rekey_under (joinAbs D s) (moveEff D fs s d) fs hfree []
            simp only [List.append_nil] at h13
            rw [← h11, h13]
          · rw [if_neg hpok] at hok
            exact Except.noConfusion hok

/-- C10 (amended): a MOVE whose source is an existing *file* (named by a
clean relative token) and whose destination exists but is not a directory
does not fail: the file is renamed onto that exact path, silently
replacing the existing file; the inverse record stores the destination
and source, and undoing it merely moves the entry back, so the replaced
contents are no longer anywhere in the tree.  (Over every source, as
originally stated, the claim is false: with a *directory* source the
rename is refused and the copy fallback also fails because the
destination exists, so the operation does fail — see the
counterexample.) -/
theorem c10_move_overwrite (D : Path) (fs : FS) (s d : Str) (c1 c2 : Str)
    (hD : DOk D) (hwf : WfFS fs) (hs : relOk s) (hd : relOk d)
    (hgs : isWithinDesktop D (joinAbs D s) = true)
    (hgd : isWithinDesktop D (joinAbs D d) = true)
    (hsrc : findNode fs (joinAbs D s) = some (Node.file c1))
    (hdst : findNode fs (joinAbs D d) = some (Node.file c2))
    (hnec : c1 ≠ c2)
    (huniq : ∀ ent ∈ fs, ent.2 = Node.file c2 → ent.1 = joinAbs D d) :
    ∃ fs', moveOp D fs s d
        = Except.ok (fs', RCmd.move (relpathStr (joinAbs D d) D)
            (relpathStr (joinAbs D s) D)) ∧
      findNode fs' (joinAbs D d) = some (Node.file c1) ∧
      findNode fs' (joinAbs D s) = none ∧
      ∃ fs2, rollbackRun D fs'
          [RCmd.move (relpathStr (joinAbs D d) D) (relpathStr (joinAbs D s) D)]
          = (fs2, none) ∧
        findNode fs2 (joinAbs D s) = some (Node.file c1) ∧
        findNode fs2 (joinAbs D d) = none ∧
        ∀ ent ∈ fs2, ent.2 ≠ Node.file c2 := by
  obtain ⟨hjs, hnss, hNs, hnes⟩ := joinAbs_normal D hD s hs
  obtain ⟨hjd, hndn, hNd, hned⟩ := joinAbs_normal D hD d hd
  have hnsnd : joinAbs D s ≠ joinAbs D d := by
    intro hc
    rw [hc, hdst] at hsrc
    exact hnec (Node.file.inj (Option.some.inj hsrc)).symm
  have hnpre : (joinAbs D s).isPrefixOf (joinAbs D d) = false := by
    rw [isPre_false_iff]
    intro t ht
    cases t with
    | nil => simp only [List.append_nil] at ht; exact hnsnd ht
    | cons a b =>
      have h14 := ancestors_dir fs hwf (joinAbs D d) (Node.file c2)
        (findNode_some_mem fs _ _ hdst) (joinAbs D s) hnes (a :: b) (by simp) ht
      rw [hsrc] at h14
      exact Node.noConfusion (Option.some.inj h14)
  have hdpre : (joinAbs D d).isPrefixOf (joinAbs D s) = false := by
    rw [isPre_false_iff]
    intro t ht
    cases t with
    | nil => simp only [List.append_nil] at ht; exact hnsnd ht.symm
    | cons a b =>
      have h14 := ancestors_dir fs hwf (joinAbs D s) (Node.file c1)
        (findNode_some_mem fs _ _ hsrc) (joinAbs D d) hned (a :: b) (by simp) ht
      rw [hdst] at h14
      exact Node.noConfusion (Option.some.inj h14)
  have hA : joinAbs D (relpathStr (joinAbs D d) D) = joinAbs D d := by
    rw [hjd]
    exact joinAbs_relpathStr D (pathComps d) (relOk_parts hd).2.2.1 hD.2 (relOk_parts hd).2.2.2
  have hB : joinAbs D (relpathStr (joinAbs D s) D) = joinAbs D s := by
    rw [hjs]
    exact joinAbs_relpathStr D (pathComps s) (relOk_parts hs).2.2.1 hD.2 (relOk_parts hs).2.2.2
  have hfreeB := removeTree_free fs (joinAbs D d)
  have hbase_src : findNode (removeTree fs (joinAbs D d)) (joinAbs D s)
      = some (Node.file c1) := by
    rw [findNode_removeTree, if_neg (by simp [hdpre])]
    exact hsrc
  have hbase_dst : findNode (removeTree fs (joinAbs D d)) (joinAbs D d) = none := by
    rw [findNode_removeTree, if_pos (isPre_refl _)]
  have hfind' : findNode ((removeTree fs (joinAbs D d)).map
      (rekeyEntry (joinAbs D s) (joinAbs D d))) (joinAbs D d) = some (Node.file c1) := by
    have h13 := findNode_rekey_under (joinAbs D s) (joinAbs D d)
      (removeTree fs (joinAbs D d)) hfreeB []
    simp only [List.append_nil] at h13
    rw [h13]
    exact hbase_src
  have hgone : findNode ((removeTree fs (joinAbs D d)).map
      (rekeyEntry (joinAbs D s) (joinAbs D d))) (joinAbs D s) = none :=
    findNode_rekey_gone _ _ _ hfreeB _ (isPre_refl _) hdpre
  have heff : (if isDirP fs (joinAbs D d) = true
      then joinAbs D d ++ [basenameOf (joinAbs D s)] else joinAbs D d)
      = joinAbs D d := by
    rw [if_neg (by simp [isDirP, hdst])]
  have hsm : shutilMove fs (joinAbs D s) (joinAbs D d)
      = Except.ok ((removeTree fs (joinAbs D d)).map
          (rekeyEntry (joinAbs D s) (joinAbs D d))) := by
    unfold shutilMove
    rw [hnss, hndn]
    rw [if_neg (by simp [isDirP, hdst])]
    unfold osRename
    simp only [hsrc]
    rw [if_neg hnsnd, if_neg (by simp [hnpre])]
    simp only [hdst]
  refine ⟨(removeTree fs (joinAbs D d)).map (rekeyEntry (joinAbs D s) (joinAbs D d)),
    ?_, hfind', hgone, removeTree fs (joinAbs D d), ?_, hbase_src, hbase_dst, ?_⟩
  · unfold moveOp
    rw [if_neg (not_not_intro ⟨hgs, hgd⟩), hnss]
    rw [if_neg (by simp [existsP, hsrc]), hndn]
    simp only [heff, hsm, hnss, hndn]
  · simp only [rollbackRun, undoCmd]
    rw [hA, hB, hndn]
    rw [if_pos (by
      constructor
      · rw [existsP_iff]
        exact ⟨Node.file c1, hfind'⟩
      · exact hgs)]
    unfold shutilMove
    rw [hndn, hnss]
    rw [if_neg (by simp [isDirP, hgone])]
    have hback := osRename_back (removeTree fs (joinAbs D d))
      (wf_removeTree fs hwf (joinAbs D d)) (joinAbs D s) (joinAbs D d)
      (Node.file c1) hbase_src hbase_dst hned hnpre
    rw [hback]
  · intro ent hent hcon
    have h15 := huniq ent (removeTree_mem fs (joinAbs D d) ent hent) hcon
    have h16 := removeTree_free fs (joinAbs D d) ent.1 ent.2
      (by rw [show (ent.1, ent.2) = ent from rfl]; exact hent)
    rw [h15, isPre_refl] at h16
    exact Bool.noConfusion h16

/-- C1 (amended): for every plan of strongly valid operations — each
path argument is a clean relative token (no leading, trailing or doubled
separator, no dot component), each operation succeeds fully inside the
boundary, each `MKDIR` has an already existing parent (so no unrecorded
intermediate directory is created), and each `MOVE`/`RENAME` lands on a
fresh path, outside the moved subtree, whose parent directory exists —
applying the plan and then immediately undoing the resulting journal
returns the well-formed tree to exactly its pre-plan state.  (The
original claim, for all plans of merely succeeding in-boundary
operations, fails: see the counterexample, where `MKDIR "A/B"` creates
the intermediate directory `A` that no inverse record removes; a
trailing-slash `MOVE` source similarly leaves a journal naming the bare
destination, whose undo renames the whole destination directory.)
-/
theorem c1_roundtrip_amended (D : Path) (fs : FS) (plan : List Op)
    (hD : DOk D) (hwf : WfFS fs) (hv : validPlan D fs plan) :
    rollbackCmds D (runPlan D fs plan).1 (runPlan D fs plan).2 = (fs, none) :=
  runPlan_rollback D hD plan fs hwf hv

/-- Witness for C1: a three-operation plan (MKDIR, MOVE into it, RENAME)
applied to a concrete tree rolls back to exactly the initial tree. -/
theorem c1_roundtrip_amended_witness :
    rollbackCmds ["desktop".data]
        (runPlan ["desktop".data]
          [(["desktop".data], Node.dir), (["desktop".data, "f".data], Node.file "1".data),
            (["desktop".data, "g".data], Node.file "2".data)]
          [Op.mkdir "A".data, Op.move "f".data "A".data, Op.rename "g".data "h".data]).1
        (runPlan ["desktop".data]
          [(["desktop".data], Node.dir), (["desktop".data, "f".data], Node.file "1".data),
            (["desktop".data, "g".data], Node.file "2".data)]
          [Op.mkdir "A".data, Op.move "f".data "A".data, Op.rename "g".data "h".data]).2
      = ([(["desktop".data], Node.dir), (["desktop".data, "f".data], Node.file "1".data),
          (["desktop".data, "g".data], Node.file "2".data)], none) :=
  c1_roundtrip_amended ["desktop".data] _ _ (by decide) (by decide) (by decide)

/-- Counterexample to C1 as stated: `MKDIR "A/B"` on a tree without `A`
is a single succeeding, in-boundary operation, yet apply-then-undo leaves
the intermediate directory `A` behind. -/
theorem c1_roundtrip_counterexample :
    opsOk ["desktop".data] [(["desktop".data], Node.dir)] [Op.mkdir "A/B".data] = true ∧
    rollbackCmds ["desktop".data]
        (runPlan ["desktop".data] [(["desktop".data], Node.dir)] [Op.mkdir "A/B".data]).1
        (runPlan ["desktop".data] [(["desktop".data], Node.dir)] [Op.mkdir "A/B".data]).2
      ≠ ([(["desktop".data], Node.dir)], none) := by
  decide

/-- C2 (amended): the guard accepts a path iff its normalized form is a
*strict* descendant of the boundary (the boundary plus a nonempty
suffix); a path normalizing to the boundary itself is rejected.  The
`/desktop/../etc` example is rejected, as the original claim states. -/
theorem c2_guard_strict_iff (D P : Path) (hDne : D ≠ [])
    (hD : ∀ c ∈ D, c ≠ [] ∧ '/' ∉ c) (hP : ∀ c ∈ P, '/' ∉ c) :
    isWithinDesktop D P = true ↔ ∃ u, u ≠ [] ∧ D ++ u = normalizePath P :=
  isWithinDesktop_iff D P hDne hD hP

/-- Witness for C2: a strict descendant of `/desktop` is accepted. -/
theorem c2_guard_strict_iff_witness :
    isWithinDesktop ["desktop".data] ["desktop".data, "a".data] = true :=
  (c2_guard_strict_iff ["desktop".data] ["desktop".data, "a".data] (by decide) (by decide)
    (by decide)).2 ⟨["a".data], by decide, by decide⟩

/-- Counterexample to C2 as stated: a path normalizing to exactly the
boundary must be accepted per the claim, but
`startswith(desktop_dir + os.sep)` rejects it; `/desktop/../etc` is
rejected as claimed. -/
theorem c2_guard_counterexample :
    normalizePath ["desktop".data] = ["desktop".data] ∧
    isWithinDesktop ["desktop".data] ["desktop".data] = false ∧
    isWithinDesktop ["desktop".data] ["desktop".data, "..".data, "etc".data] = false := by
  decide

/-- C3 (amended): every failure raised inside the per-line dispatch
(boundary violation, missing source, unknown command, wrong arity) is
caught and execution continues with the next line; but a tokenization
`ValueError` (such as an unbalanced quote) is re-raised outside the
per-line handler and aborts the remaining lines.  Hence when every line
is blank, a comment, or tokenizes successfully, the interpreter processes
the whole plan without aborting, whatever the per-line outcomes. -/
theorem c3_continue_amended (D : Path) (lines : List Str) (fs : FS) (J : List RCmd)
    (h : ∀ l ∈ lines, lineTokOk l) :
    (executePlan D fs J lines).2.2 = none :=
  executePlan_no_abort D lines fs J h

/-- Witness for C3: a plan whose lines include a failing move, an unknown
command and an arity error is still processed to the end. -/
theorem c3_continue_amended_witness :
    (executePlan ["desktop".data] [(["desktop".data], Node.dir)] []
        ["MKDIR \"A\"".data, "MOVE \"missing\" \"A\"".data, "FROB \"x\"".data,
          "MKDIR".data, "# done".data]).2.2 = none :=
  c3_continue_amended ["desktop".data] _ _ [] (by decide)

/-- Counterexample to C3 as stated: one unbalanced quote aborts the whole
plan — the following valid `MKDIR "B"` line is never applied. -/
theorem c3_abort_counterexample :
    (executePlan ["desktop".data] [(["desktop".data], Node.dir)] []
        ["MKDIR \"A".data, "MKDIR \"B\"".data]).2.2 ≠ none ∧
    (executePlan ["desktop".data] [(["desktop".data], Node.dir)] []
        ["MKDIR \"A".data, "MKDIR \"B\"".data]).1 = [(["desktop".data], Node.dir)] := by
  decide

/-- Witness for C4: with a destination that is not an existing directory,
the effective destination is the destination path itself. -/
theorem c4_move_resolution_amended_witness :
    moveEff ["desktop".data]
        [(["desktop".data], Node.dir), (["desktop".data, "f".data], Node.file "x".data)]
        "f".data "g".data
      = joinAbs ["desktop".data] "g".data :=
  (c4_move_resolution_amended ["desktop".data]
    [(["desktop".data], Node.dir), (["desktop".data, "f".data], Node.file "x".data)]
    "f".data "g".data (by decide) (by decide) (by decide) (by decide) (by decide)).2.2.1
    (by decide)

/-- Counterexample to C4 as stated: with `Docs` an existing directory that
already contains a *directory* named `f`, `MOVE "f" "Docs"` succeeds but
places the file at `Docs/f/f` — not at the claimed effective destination
`Docs/f`, which remains the old directory — while the inverse record
still stores `Docs/f`. -/
theorem c4_move_resolution_counterexample :
    moveOp ["desktop".data]
        [(["desktop".data], Node.dir), (["desktop".data, "f".data], Node.file "x".data),
          (["desktop".data, "Docs".data], Node.dir),
          (["desktop".data, "Docs".data, "f".data], Node.dir)]
        "f".data "Docs".data
      = Except.ok ([(["desktop".data], Node.dir),
          (["desktop".data, "Docs".data, "f".data, "f".data], Node.file "x".data),
          (["desktop".data, "Docs".data], Node.dir),
          (["desktop".data, "Docs".data, "f".data], Node.dir)],
          RCmd.move "Docs/f".data "f".data) ∧
    findNode [(["desktop".data], Node.dir),
        (["desktop".data, "Docs".data, "f".data, "f".data], Node.file "x".data),
        (["desktop".data, "Docs".data], Node.dir),
        (["desktop".data, "Docs".data, "f".data], Node.dir)]
      ["desktop".data, "Docs".data, "f".data] = some Node.dir ∧
    findNode [(["desktop".data], Node.dir),
        (["desktop".data, "Docs".data, "f".data, "f".data], Node.file "x".data),
        (["desktop".data, "Docs".data], Node.dir),
        (["desktop".data, "Docs".data, "f".data], Node.dir)]
      ["desktop".data, "Docs".data, "f".data, "f".data] = some (Node.file "x".data) := by
  decide

/-- C5: undo processes the journal strictly in reverse-of-insertion order
— the last appended record is undone first — and for the concrete plan
`MKDIR "A"; MOVE "f" "A"` the move is undone (taking `f` back out of `A`)
before `A` is removed, restoring the original tree. -/
theorem c5_undo_reverse_order :
    (∀ (D : Path) (fs : FS) (J : List RCmd) (r : RCmd),
        rollbackCmds D fs (J ++ [r]) =
          match undoCmd D fs r with
          | Except.ok fs2 => rollbackCmds D fs2 J
          | Except.error e => (fs, some e)) ∧
    runPlan ["desktop".data]
        [(["desktop".data], Node.dir), (["desktop".data, "f".data], Node.file "1".data)]
        [Op.mkdir "A".data, Op.move "f".data "A".data]
      = ([(["desktop".data], Node.dir),
          (["desktop".data, "A".data, "f".data], Node.file "1".data),
          (["desktop".data, "A".data], Node.dir)],
          [RCmd.rmdir "A".data, RCmd.move "A/f".data "f".data]) ∧
    rollbackCmds ["desktop".data]
        [(["desktop".data], Node.dir),
          (["desktop".data, "A".data, "f".data], Node.file "1".data),
          (["desktop".data, "A".data], Node.dir)]
        [RCmd.rmdir "A".data, RCmd.move "A/f".data "f".data]
      = ([(["desktop".data], Node.dir), (["desktop".data, "f".data], Node.file "1".data)],
          none) := by
  refine ⟨?_, by decide, by decide⟩
  intro D fs J r
  unfold rollbackCmds
  rw [List.reverse_append]
  cases hu : undoCmd D fs r with
  | ok fs2 => simp [rollbackRun, hu]
  | error e => simp [rollbackRun, hu]

/-- C6 (amended): during undo a Move inverse record is attempted only if
its recorded source still exists *and* its destination resolves inside
the boundary, and is otherwise skipped (silently, no warning is logged)
with the undo continuing; a Rename inverse record is skipped only when
its recorded source is missing — its destination is *not* checked against
the boundary (see the counterexample, where a rename record moves a file
out of the desktop). -/
theorem c6_undo_skip_amended (D : Path) (fs : FS) (a b : Str) (rest : List RCmd) :
    (existsP fs (normalizePath (joinAbs D a)) = false →
      rollbackRun D fs (RCmd.move a b :: rest) = rollbackRun D fs rest) ∧
    (isWithinDesktop D (joinAbs D b) = false →
      rollbackRun D fs (RCmd.move a b :: rest) = rollbackRun D fs rest) ∧
    (existsP fs (normalizePath (joinAbs D a)) = false →
      rollbackRun D fs (RCmd.ren a b :: rest) = rollbackRun D fs rest) := by
  refine ⟨?_, ?_, ?_⟩
  · intro h
    simp only [rollbackRun, undoCmd]
    rw [if_neg (by simp [h])]
  · intro h
    simp only [rollbackRun, undoCmd]
    rw [if_neg (by simp [h])]
  · intro h
    simp only [rollbackRun, undoCmd]
    rw [if_neg (by simp [h])]

/-- Witness for C6: a Move record with a missing source is skipped and the
undo continues (here: terminates) with the state untouched. -/
theorem c6_undo_skip_amended_witness :
    rollbackRun ["desktop".data] [(["desktop".data], Node.dir)]
        [RCmd.move "x".data "y".data]
      = rollbackRun ["desktop".data] [(["desktop".data], Node.dir)] [] :=
  (c6_undo_skip_amended ["desktop".data] [(["desktop".data], Node.dir)]
    "x".data "y".data []).1 (by decide)

/-- Counterexample to C6 as stated: a Rename record whose destination
resolves *outside* the boundary is attempted anyway — the file is renamed
out of the desktop. -/
theorem c6_rename_escape_counterexample :
    isWithinDesktop ["desktop".data] (joinAbs ["desktop".data] "../escaped".data) = false ∧
    rollbackRun ["desktop".data]
        [(["desktop".data], Node.dir), (["desktop".data, "x".data], Node.file "s".data)]
        [RCmd.ren "x".data "../escaped".data]
      = ([(["desktop".data], Node.dir), (["escaped".data], Node.file "s".data)], none) := by
  decide

/-- C7: a RemoveIfEmpty inverse removes its directory only when it exists
as a directory with zero entries, and otherwise leaves the tree untouched;
in either case the undo continues with the remaining records.  In
particular a non-empty directory is never deleted. -/
theorem c7_rmdir_safe (D : Path) (fs : FS) (rel : Str) (rest : List RCmd) :
    rollbackRun D fs (RCmd.rmdir rel :: rest)
      = rollbackRun D
          (if isDirP fs (normalizePath (joinAbs D rel)) = true ∧
              childCount fs (normalizePath (joinAbs D rel)) = 0
           then rmdirFS fs (normalizePath (joinAbs D rel)) else fs) rest ∧
    (childCount fs (normalizePath (joinAbs D rel)) ≠ 0 →
      rollbackRun D fs (RCmd.rmdir rel :: rest) = rollbackRun D fs rest) := by
  have hmain : rollbackRun D fs (RCmd.rmdir rel :: rest)
      = rollbackRun D
          (if isDirP fs (normalizePath (joinAbs D rel)) = true ∧
              childCount fs (normalizePath (joinAbs D rel)) = 0
           then rmdirFS fs (normalizePath (joinAbs D rel)) else fs) rest := by
    simp only [rollbackRun, undoCmd]
    by_cases h1 : isDirP fs (normalizePath (joinAbs D rel)) = true
    · by_cases h2 : childCount fs (normalizePath (joinAbs D rel)) = 0
      · rw [if_pos h1, if_pos h2, if_pos ⟨h1, h2⟩]
      · rw [if_pos h1, if_neg h2, if_neg (fun hc => h2 hc.2)]
    · rw [if_neg h1, if_neg (fun hc => h1 hc.1)]
  refine ⟨hmain, ?_⟩
  intro h
  rw [hmain, if_neg (fun hc => h hc.2)]

/-- Witness for C7: a non-empty directory's RemoveIfEmpty record leaves
the tree untouched and the undo continues. -/
theorem c7_rmdir_safe_witness :
    rollbackRun ["desktop".data]
        [(["desktop".data], Node.dir), (["desktop".data, "A".data], Node.dir),
          (["desktop".data, "A".data, "f".data], Node.file "1".data)]
        [RCmd.rmdir "A".data]
      = rollbackRun ["desktop".data]
          [(["desktop".data], Node.dir), (["desktop".data, "A".data], Node.dir),
            (["desktop".data, "A".data, "f".data], Node.file "1".data)] [] :=
  (c7_rmdir_safe ["desktop".data]
    [(["desktop".data], Node.dir), (["desktop".data, "A".data], Node.dir),
      (["desktop".data, "A".data, "f".data], Node.file "1".data)]
    "A".data []).2 (by decide)

/-- C8: when a `MKDIR` actually created its target (appending its single
inverse record), re-running the same `MKDIR` is a no-op that appends no
record, and the two-call plan ends with exactly the one record of the
first call in the journal. -/
theorem c8_mkdir_idempotent (D : Path) (fs fs1 : FS) (rel : Str)
    (h : mkdirOp D fs rel = Except.ok (fs1, some (RCmd.rmdir rel))) :
    mkdirOp D fs1 rel = Except.ok (fs1, none) ∧
    runPlan D fs [Op.mkdir rel, Op.mkdir rel] = (fs1, [RCmd.rmdir rel]) :=
  mkdirOp_twice D fs fs1 rel h

/-- Witness for C8 on a concrete tree. -/
theorem c8_mkdir_idempotent_witness :
    mkdirOp ["desktop".data]
        [(["desktop".data], Node.dir), (["desktop".data, "A".data], Node.dir)] "A".data
      = Except.ok ([(["desktop".data], Node.dir), (["desktop".data, "A".data], Node.dir)],
          none) ∧
    runPlan ["desktop".data] [(["desktop".data], Node.dir)]
        [Op.mkdir "A".data, Op.mkdir "A".data]
      = ([(["desktop".data], Node.dir), (["desktop".data, "A".data], Node.dir)],
          [RCmd.rmdir "A".data]) :=
  c8_mkdir_idempotent ["desktop".data] [(["desktop".data], Node.dir)] _ "A".data (by decide)

/-- C9: after the plan runs to completion and the user confirms with `y`
(commit), the persisted journal file no longer exists, and a subsequent
load for undo fails with the "no rollback information" error. -/
theorem c9_commit_removes_journal (D : Path) (fs0 : FS) (disk0 : Disk)
    (lines : List Str) (ans : Str)
    (h1 : (executePlan D fs0 [] lines).2.2 = none)
    (h2 : confirmedYes ans = true) :
    (executeMode D fs0 disk0 lines ans).disk = none ∧
    loadRollbackInfo (executeMode D fs0 disk0 lines ans).disk
      = Except.error "No rollback information file found.".data := by
  have hd : (executeMode D fs0 disk0 lines ans).disk = none := by
    unfold executeMode
    simp only [h1, h2, if_true]
  exact ⟨hd, by rw [hd]; rfl⟩

/-- Witness for C9 on a concrete run (`" Y "` is stripped and lowered). -/
theorem c9_commit_removes_journal_witness :
    (executeMode ["desktop".data] [(["desktop".data], Node.dir)] none
        ["MKDIR \"B\"".data] " Y ".data).disk = none ∧
    loadRollbackInfo (executeMode ["desktop".data] [(["desktop".data], Node.dir)] none
        ["MKDIR \"B\"".data] " Y ".data).disk
      = Except.error "No rollback information file found.".data :=
  c9_commit_removes_journal ["desktop".data] [(["desktop".data], Node.dir)] none
    ["MKDIR \"B\"".data] " Y ".data (by decide) (by decide)

/-- Witness for C10 on a concrete tree: `MOVE "a" "b"` with `b` an
existing file succeeds, replaces `b`, and the undo brings `a` back while
`b`'s old contents are gone. -/
theorem c10_move_overwrite_witness :
    ∃ fs', moveOp ["desktop".data]
        [(["desktop".data], Node.dir), (["desktop".data, "a".data], Node.file "ca".data),
          (["desktop".data, "b".data], Node.file "cb".data)] "a".data "b".data
        = Except.ok (fs', RCmd.move (relpathStr (joinAbs ["desktop".data] "b".data)
            ["desktop".data]) (relpathStr (joinAbs ["desktop".data] "a".data)
            ["desktop".data])) ∧
      findNode fs' (joinAbs ["desktop".data] "b".data) = some (Node.file "ca".data) ∧
      findNode fs' (joinAbs ["desktop".data] "a".data) = none ∧
      ∃ fs2, rollbackRun ["desktop".data] fs'
          [RCmd.move (relpathStr (joinAbs ["desktop".data] "b".data) ["desktop".data])
            (relpathStr (joinAbs ["desktop".data] "a".data) ["desktop".data])]
          = (fs2, none) ∧
        findNode fs2 (joinAbs ["desktop".data] "a".data) = some (Node.file "ca".data) ∧
        findNode fs2 (joinAbs ["desktop".data] "b".data) = none ∧
        ∀ ent ∈ fs2, ent.2 ≠ Node.file "cb".data :=
  c10_move_overwrite ["desktop".data]
    [(["desktop".data], Node.dir), (["desktop".data, "a".data], Node.file "ca".data),
      (["desktop".data, "b".data], Node.file "cb".data)]
    "a".data "b".data "ca".data "cb".data (by decide) (by decide) (by decide) (by decide)
    (by decide) (by decide) (by decide) (by decide) (by decide) (by decide)

/-- Counterexample to C10 as stated: the claim covers *every* MOVE whose
destination path exists but is not a directory, yet with a *directory*
source the operation fails — the rename of a directory over a
non-directory is refused, and the copy fallback raises because the
destination already exists — so "the operation does not fail" is false.
Here `d` is an existing directory, `b` an existing file, and
`MOVE "d" "b"` returns an error. -/
theorem c10_move_overwrite_counterexample :
    findNode [(["desktop".data], Node.dir), (["desktop".data, "d".data], Node.dir),
        (["desktop".data, "b".data], Node.file "cb".data)]
      (joinAbs ["desktop".data] "d".data) = some Node.dir ∧
    findNode [(["desktop".data], Node.dir), (["desktop".data, "d".data], Node.dir),
        (["desktop".data, "b".data], Node.file "cb".data)]
      (joinAbs ["desktop".data] "b".data) = some (Node.file "cb".data) ∧
    isDirP [(["desktop".data], Node.dir), (["desktop".data, "d".data], Node.dir),
        (["desktop".data, "b".data], Node.file "cb".data)]
      (joinAbs ["desktop".data] "b".data) = false ∧
    ∃ e, moveOp ["desktop".data]
        [(["desktop".data], Node.dir), (["desktop".data, "d".data], Node.dir),
          (["desktop".data, "b".data], Node.file "cb".data)]
        "d".data "b".data = Except.error e :=
  ⟨by decide, by decide, by decide, "ENOTDIR".data, by decide⟩

end Dope
